import Mathlib

/-!
Shallow embedding of the `turboezh/heapcache` repository (Go).

The repository keeps several variants of the same priority cache:

* `part_000` — package `heapcache`, interface-based items (`CacheKey`/`CacheLess`),
  variadic `Add`, `All`/`Any`, `Remove(keys...)`, `Evict`, `Purge`,
  `SetCapacity`/`ChangeCapacity` with clamping of negative capacities;
* `part_001` — concrete `Item` records (key, value, integer priority), single
  `Add(key, value, priority)`, boolean `Remove`, conditional `heap.Fix` when the
  priority actually changed;
* `part_002` — comparator-function variant (`Less`), whose `Add` takes no lock;
* `cache.go`, first document — package `cache`, `HeapCache` with a batched
  `AddMany` (raw pushes followed by one `heap.Init`), an `evict` that does not
  guard against an empty heap, and an `Add` without the zero-capacity
  short-circuit;
* `cache.go`, second document — package `heapcache` with `assetPositive`, which
  panics on negative capacities instead of clamping.

All variants drive Go's `container/heap` over a slice of wrapper structs; the
key map stores pointers to the same structs, and every wrapper carries its own
current slice index, updated by `Swap`/`Push`/`Pop`.

The state model makes the pointer aliasing explicit: `arena` is the list of all
allocated wrappers (a wrapper's id is its allocation position), the heap
sequence `seq` and the key map `items` both refer to wrappers by id.  Go code
that mutates a wrapper through a pointer becomes an update of the arena entry,
visible from both the heap and the map.  Operations that can panic in Go
(indexing outside a slice) return `Option`, with `none` for the panic.

Machine integers (`int`, `int64`) are modelled as `Int`; `uint` lengths and
capacities are non-negative by construction, so exact `Int`/`Nat` arithmetic
coincides with Go's (no overflow is reachable at these sizes).
-/

namespace Heapcache

/-- Wrapper is the cache item wrapper: it carries the user key, the user value,
the priority used by the comparator, and its own current position in the heap
slice (`index`, set to `-1` by the raw `Pop` "for safety"). -/
structure Wrapper (κ ν : Type) where
  index : Int
  key : κ
  value : ν
  prio : Int
deriving Repr, DecidableEq

/-- Cache state: the capacity bound, the arena of all allocated wrappers
(wrapper id = allocation position), the heap backing sequence of wrapper ids,
and the key map as an association list from key to wrapper id. -/
structure Cache (κ ν : Type) where
  capacity : Int
  arena : List (Wrapper κ ν)
  seq : List Nat
  items : List (κ × Nat)
deriving Repr, DecidableEq

variable {κ ν : Type} [DecidableEq κ] [Inhabited κ] [Inhabited ν]

/-- Junk wrapper used as the default of out-of-range reads; well-formed states
never read it. -/
def wjunk : Wrapper κ ν := ⟨-1, default, default, 0⟩

/-- Wrapper stored in the arena under the given id. -/
def getW (c : Cache κ ν) (id : Nat) : Wrapper κ ν := c.arena.getD id wjunk

/-- Replace the arena entry of the given id. -/
def setW (c : Cache κ ν) (id : Nat) (w : Wrapper κ ν) : Cache κ ν :=
  { c with arena := c.arena.set id w }

/-- Overwrite only the stored heap position of a wrapper. -/
def setWindex (c : Cache κ ν) (id : Nat) (i : Int) : Cache κ ν :=
  setW c id { getW c id with index := i }

/-- Wrapper id sitting at a heap position. -/
def widAt (c : Cache κ ν) (pos : Nat) : Nat := c.seq.getD pos 0

/-- Wrapper sitting at a heap position. -/
def wAt (c : Cache κ ν) (pos : Nat) : Wrapper κ ν := getW c (widAt c pos)

/-- Priority at a heap position. -/
def prioAt (c : Cache κ ν) (pos : Nat) : Int := (wAt c pos).prio

/-- Less of `itemsHeap`: compares the priorities at two heap positions
(all variants order wrappers by the caller's strict "less" on priorities). -/
def hLess (c : Cache κ ν) (i j : Nat) : Bool := prioAt c i < prioAt c j

/-- Swap of `itemsHeap` (`heap.go`): exchange the two slots and update each
moved wrapper's stored index to its new position. -/
def hswap (c : Cache κ ν) (i j : Nat) : Cache κ ν :=
  let a := widAt c i
  let b := widAt c j
  let c1 := { c with seq := (c.seq.set i b).set j a }
  let c2 := setWindex c1 b (i : Int)
  setWindex c2 a (j : Int)

/-- Sift-up of Go `container/heap.up`: while the entry is less than its parent,
swap with the parent. -/
def hup (c : Cache κ ν) (j : Nat) : Cache κ ν :=
  let i := (j - 1) / 2
  if _h1 : i = j then c
  else if hLess c j i then hup (hswap c i j) i
  else c
termination_by j
decreasing_by
  have hj : 0 < j := by omega
  calc (j - 1) / 2 ≤ j - 1 := Nat.div_le_self _ _
    _ < j := by omega

/-- Child selection inside Go `container/heap.down`: the left child, replaced
by the right one when that exists (below `n`) and sorts strictly earlier. -/
def childSel (c : Cache κ ν) (i n : Nat) : Nat :=
  if 2 * i + 2 < n ∧ hLess c (2 * i + 2) (2 * i + 1) then 2 * i + 2 else 2 * i + 1

/-- Loop of Go `container/heap.down` restricted to the first `n` positions;
returns the state and the final position of the sifted entry.  (The `j1 < 0`
overflow test in the Go source cannot fire at representable sizes and has no
counterpart over `Nat`.) -/
def hdownGo (c : Cache κ ν) (i n : Nat) : Cache κ ν × Nat :=
  if _h1 : 2 * i + 1 < n then
    if hLess c (childSel c i n) i then hdownGo (hswap c i (childSel c i n)) (childSel c i n) n
    else (c, i)
  else (c, i)
termination_by n - i
decreasing_by
  simp only [childSel]
  split <;> omega

/-- Go `container/heap.down`: the Boolean reports whether the entry moved. -/
def hdown (c : Cache κ ν) (i n : Nat) : Cache κ ν × Bool :=
  let r := hdownGo c i n
  (r.1, decide (i < r.2))

/-- Raw `Push` method of `itemsHeap`: record the position, append at the end. -/
def hPushRaw (c : Cache κ ν) (id : Nat) : Cache κ ν :=
  let c1 := setWindex c id (c.seq.length : Int)
  { c1 with seq := c1.seq ++ [id] }

/-- Raw `Pop` method of `itemsHeap`: take the last slot, invalidate its stored
index, shrink.  On an empty heap Go reads `Heap[-1]` and panics (`none`). -/
def hPopRaw (c : Cache κ ν) : Option (Nat × Cache κ ν) :=
  match c.seq.getLast? with
  | none => none
  | some id => some (id, { setWindex c id (-1) with seq := c.seq.dropLast })

/-- Go `heap.Push` after the cache allocates a wrapper: raw push of the fresh
id, then sift up from the last position.  Returns the new wrapper's id. -/
def heapPushW (c : Cache κ ν) (w : Wrapper κ ν) : Nat × Cache κ ν :=
  let id := c.arena.length
  let c1 := { c with arena := c.arena ++ [w] }
  let c2 := hPushRaw c1 id
  (id, hup c2 (c2.seq.length - 1))

/-- Go `heap.Pop`: swap the root with the last slot, sift the new root down
within the shrunk range, then raw pop.  Returns the removed wrapper.  On an
empty heap Go panics inside `Swap(0, -1)` (`none`). -/
def heapPop (c : Cache κ ν) : Option (Wrapper κ ν × Cache κ ν) :=
  if c.seq.isEmpty then none
  else
    let n := c.seq.length - 1
    let c1 := hswap c 0 n
    let c2 := (hdownGo c1 0 n).1
    match hPopRaw c2 with
    | none => none
    | some (id, c3) => some (getW c3 id, c3)

/-- Repair step shared by `heap.Fix` and `heap.Remove`: sift down within the
first `n` positions, and when nothing moved, sift up. -/
def fixCore (c : Cache κ ν) (t n : Nat) : Cache κ ν :=
  let r := hdown c t n
  if r.2 then r.1 else hup r.1 t

/-- Go `heap.Remove` at a stored index: swap the slot with the last one, repair
by sifting down then (if nothing moved) up, and raw pop.  Any index outside
`[0, Len)` makes Go read outside the slice (`none`). -/
def heapRemove (c : Cache κ ν) (i : Int) : Option (Nat × Cache κ ν) :=
  if i < 0 then none
  else
    let iN := i.toNat
    if c.seq.length ≤ iN then none
    else
      let n := c.seq.length - 1
      if n ≠ iN then hPopRaw (fixCore (hswap c iN n) iN n)
      else hPopRaw c

/-- Go `heap.Fix` at a stored index: sift down, and if the entry did not move,
sift up.  With index `-1` Go's `down` stops at the overflow test and `up`
stops at once, so the call is a no-op; an index at or beyond a nonempty live
range makes `up` read outside the slice (`none`). -/
def heapFix (c : Cache κ ν) (i : Int) : Option (Cache κ ν) :=
  if i < 0 then some c
  else if c.seq.length ≤ i.toNat ∧ i.toNat ≠ 0 then none
  else some (fixCore c i.toNat c.seq.length)

/-- Loop of Go `heap.Init` (Floyd's construction): sift down at positions
`n/2 - 1, …, 0`; the first argument counts the remaining positions. -/
def heapInitGo (n : Nat) : Cache κ ν → Nat → Cache κ ν
  | c, 0 => c
  | c, k + 1 => heapInitGo n (hdownGo c k n).1 k

/-- Go `heap.Init`. -/
def heapInit (c : Cache κ ν) : Cache κ ν :=
  heapInitGo c.seq.length c (c.seq.length / 2)

/-- Lookup in the Go map, modelled on the association list. -/
def mlookup : List (κ × Nat) → κ → Option Nat
  | [], _ => none
  | (k', id) :: rest, k => if k' = k then some id else mlookup rest k

/-- Go map assignment `m[k] = id`: overwrite the binding if present, append
otherwise. -/
def mput : List (κ × Nat) → κ → Nat → List (κ × Nat)
  | [], k, id => [(k, id)]
  | (k', id') :: rest, k, id =>
      if k' = k then (k, id) :: rest else (k', id') :: mput rest k id

/-- Go `delete(m, k)`: drop the binding of `k` (a no-op when absent). -/
def merase (m : List (κ × Nat)) (k : κ) : List (κ × Nat) :=
  m.filter (fun p => decide (p.1 ≠ k))

/-!
Cache operations.  The guarded internal `evict` (variants `part_000`,
`part_001`, `part_002`, and the second document of `cache.go`) loops while
`count > 0 && heap.Len() > 0`; `cEvictGo` additionally records the popped
wrappers, so that the number evicted is the length of that list.
-/

/-- Internal guarded `evict`: repeatedly `heap.Pop` the root and delete its key
from the map, stopping when the request is exhausted or the heap is empty.
Returns the list of popped wrappers and the final state. -/
def cEvictGo (c : Cache κ ν) (count : Int) : List (Wrapper κ ν) × Cache κ ν :=
  if _h : count > 0 then
    match heapPop c with
    | none => ([], c)
    | some (w, c1) =>
        let c2 := { c1 with items := merase c1.items w.key }
        let r := cEvictGo c2 (count - 1)
        (w :: r.1, r.2)
  else ([], c)
termination_by count.toNat
decreasing_by omega

/-- Guarded `evict` as in the source: the number of wrappers popped, and the
final state. -/
def cEvict (c : Cache κ ν) (count : Int) : Int × Cache κ ν :=
  let r := cEvictGo c count
  ((r.1.length : Int), r.2)

/-- Public `Evict` of `part_000` (lock, then the guarded internal `evict`). -/
def cEvictP (c : Cache κ ν) (count : Int) : Int × Cache κ ν := cEvict c count

/-- New of `part_000` and `part_002`: a negative capacity is clamped to zero,
everything starts empty. -/
def cNew (capacity : Int) : Cache κ ν :=
  { capacity := if capacity < 0 then 0 else capacity, arena := [], seq := [], items := [] }

/-- The `addItem` of `part_000`: zero capacity short-circuits; an existing key
has its wrapper's payload overwritten in place and `heap.Fix` run at its stored
index; a new key first evicts one entry when the cache is full, then the fresh
wrapper is pushed and registered in the map. -/
def addItemA (c : Cache κ ν) (k : κ) (v : ν) (p : Int) : Option (Cache κ ν) :=
  if c.capacity = 0 then some c
  else
    match mlookup c.items k with
    | some id =>
        let c1 := setW c id { getW c id with value := v, prio := p }
        heapFix c1 (getW c id).index
    | none =>
        let c2 := if (c.items.length : Int) ≥ c.capacity then (cEvict c 1).2 else c
        let r := heapPushW c2 ⟨0, k, v, p⟩
        some { r.2 with items := mput r.2.items k r.1 }

/-- Variadic `Add` of `part_000`: `addItem` for each argument in order. -/
def cAdd (c : Cache κ ν) : List (κ × ν × Int) → Option (Cache κ ν)
  | [] => some c
  | (k, v, p) :: rest => (addItemA c k v p).bind (fun c1 => cAdd c1 rest)

/-- The `addItem` of `part_001`: like `part_000`, but an existing key only gets
`heap.Fix` when the priority actually changed. -/
def addItemB (c : Cache κ ν) (k : κ) (v : ν) (p : Int) : Option (Cache κ ν) :=
  if c.capacity = 0 then some c
  else
    match mlookup c.items k with
    | some id =>
        let w := getW c id
        let c1 := setW c id { w with value := v }
        if w.prio ≠ p then heapFix (setW c1 id { getW c1 id with prio := p }) w.index
        else some c1
    | none =>
        let c2 := if (c.items.length : Int) ≥ c.capacity then (cEvict c 1).2 else c
        let r := heapPushW c2 ⟨0, k, v, p⟩
        some { r.2 with items := mput r.2.items k r.1 }

/-- Get: the stored value and a found flag, under the read lock. -/
def cGet (c : Cache κ ν) (k : κ) : Option ν :=
  match mlookup c.items k with
  | some id => some (getW c id).value
  | none => none

/-- All (`part_000`) / `Contains` (`cache.go`): false as soon as one key is
missing, true when the loop over the keys finishes. -/
def cAll (c : Cache κ ν) : List κ → Bool
  | [] => true
  | k :: rest => if (mlookup c.items k).isSome then cAll c rest else false

/-- Any: true as soon as one key is present, false when the loop finishes. -/
def cAny (c : Cache κ ν) : List κ → Bool
  | [] => false
  | k :: rest => if (mlookup c.items k).isSome then true else cAny c rest

/-- Loop body of `Remove` (`part_000`): for each present key, delete the map
binding and `heap.Remove` at the wrapper's stored index, counting removals. -/
def cRemoveGo (c : Cache κ ν) (removed : Int) : List κ → Option (Int × Cache κ ν)
  | [] => some (removed, c)
  | k :: rest =>
      match mlookup c.items k with
      | none => cRemoveGo c removed rest
      | some id =>
          let c1 := { c with items := merase c.items k }
          match heapRemove c1 (getW c1 id).index with
          | none => none
          | some r => cRemoveGo r.2 (removed + 1) rest

/-- Remove of `part_000`: number of keys actually removed. -/
def cRemove (c : Cache κ ν) (keys : List κ) : Option (Int × Cache κ ν) :=
  cRemoveGo c 0 keys

/-- Remove of `part_001`: single key, Boolean success flag. -/
def cRemove1 (c : Cache κ ν) (k : κ) : Option (Bool × Cache κ ν) :=
  match mlookup c.items k with
  | none => some (false, c)
  | some id =>
      let c1 := { c with items := merase c.items k }
      match heapRemove c1 (getW c1 id).index with
      | none => none
      | some r => some (true, r.2)

/-- Purge: fresh empty heap and map, capacity kept (the old wrappers become
unreachable, so the arena is reset as well). -/
def cPurge (c : Cache κ ν) : Cache κ ν :=
  { c with arena := [], seq := [], items := [] }

/-- Internal `setCapacity` of `part_000`/`part_002`: equal capacity returns at
once; a negative request is clamped to zero; the excess above the new capacity
is evicted; finally the bound is stored. -/
def csetCapacity (c : Cache κ ν) (cap : Int) : Cache κ ν :=
  if cap = c.capacity then c
  else
    let cap2 := if cap < 0 then 0 else cap
    let c1 := if (c.items.length : Int) - cap2 > 0
      then (cEvict c ((c.items.length : Int) - cap2)).2 else c
    { c1 with capacity := cap2 }

/-- ChangeCapacity of `part_000`/`part_002`: `setCapacity(capacity + delta)`. -/
def cChangeCapacity (c : Cache κ ν) (delta : Int) : Cache κ ν :=
  csetCapacity c (c.capacity + delta)

/-!
The `assetPositive` variant (second document of `cache.go`): construction,
`SetCapacity` and `Evict` panic on a negative argument instead of clamping.
-/

/-- The `assetPositive` helper: panics (`none`) on a negative value. -/
def assetPositive (value : Int) : Option Unit :=
  if value < 0 then none else some ()

/-- New of the `assetPositive` variant of `cache.go`. -/
def cNewD (capacity : Int) : Option (Cache κ ν) :=
  (assetPositive capacity).map
    (fun _ => { capacity := capacity, arena := [], seq := [], items := [] })

/-- Internal `setCapacity` of the `assetPositive` variant of `cache.go`. -/
def csetCapacityD (c : Cache κ ν) (cap : Int) : Option (Cache κ ν) :=
  (assetPositive cap).map (fun _ =>
    if cap = c.capacity then c
    else
      let c1 := if (c.items.length : Int) - cap > 0
        then (cEvict c ((c.items.length : Int) - cap)).2 else c
      { c1 with capacity := cap })

/-!
The `HeapCache` variant (first document of `cache.go`): `uint` capacity, an
unguarded internal `evict`, an `Add` without the zero-capacity short-circuit,
and the batched `AddMany`.
-/

/-- New of `HeapCache` (`uint` capacity, so never negative). -/
def hcNew (capacity : Nat) : Cache κ ν :=
  { capacity := (capacity : Int), arena := [], seq := [], items := [] }

/-- Unguarded internal `evict` of `HeapCache`: pops `count` times with no check
that the heap is nonempty, so popping an empty heap panics (`none`). -/
def hcEvict (c : Cache κ ν) (count : Int) : Option (Cache κ ν) :=
  if _h : count > 0 then
    match heapPop c with
    | none => none
    | some (w, c1) => hcEvict { c1 with items := merase c1.items w.key } (count - 1)
  else some c
termination_by count.toNat
decreasing_by omega

/-- Add of `HeapCache`: an existing key has its value overwritten and, when the
priority changed, `heap.Fix` run; a new key evicts once whenever
`len(items) >= capacity` (with no zero-capacity short-circuit), then pushes. -/
def hcAdd (c : Cache κ ν) (k : κ) (v : ν) (p : Int) : Option (Cache κ ν) :=
  match mlookup c.items k with
  | some id =>
      let w := getW c id
      let c1 := setW c id { w with value := v }
      if w.prio ≠ p then heapFix (setW c1 id { getW c1 id with prio := p }) w.index
      else some c1
  | none =>
      let step := if (c.items.length : Int) ≥ c.capacity then hcEvict c 1 else some c
      step.bind (fun c2 =>
        let r := heapPushW c2 ⟨0, k, v, p⟩
        some { r.2 with items := mput r.2.items k r.1 })

/-- First pass of `HeapCache.AddMany`: apply value/priority updates for keys
already in the map, and collect the rest (in order) to be inserted; the map is
not consulted against the batch itself, so a key occurring twice as new is
collected twice. -/
def hcAddManyGo (c : Cache κ ν) : List (κ × ν × Int) →
    Option (Cache κ ν × List (κ × ν × Int))
  | [] => some (c, [])
  | (k, v, p) :: rest =>
      match mlookup c.items k with
      | some id =>
          let w := getW c id
          let c1 := setW c id { w with value := v }
          let step := if w.prio ≠ p
            then heapFix (setW c1 id { getW c1 id with prio := p }) w.index
            else some c1
          step.bind (fun c2 => hcAddManyGo c2 rest)
      | none =>
          (hcAddManyGo c rest).map (fun r => (r.1, (k, v, p) :: r.2))

/-- AddMany of `HeapCache`: update existing keys, evict
`len(items) + len(toAdd) - capacity` entries when that is positive, raw-push
every collected new wrapper and register it in the map, then rebuild the heap
with one `heap.Init`. -/
def hcAddMany (c : Cache κ ν) (batch : List (κ × ν × Int)) : Option (Cache κ ν) :=
  (hcAddManyGo c batch).bind (fun r =>
    let c1 := r.1
    let toAdd := r.2
    let lenItems := c1.items.length
    let lenAdd := toAdd.length
    let step := if (lenItems : Int) + lenAdd > c1.capacity
      then hcEvict c1 ((lenItems : Int) + lenAdd - c1.capacity) else some c1
    step.bind (fun c2 =>
      if lenAdd > 0 then
        let c3 := toAdd.foldl (fun acc kvp =>
          let id := acc.arena.length
          let acc1 := { acc with arena := acc.arena ++ [⟨0, kvp.1, kvp.2.1, kvp.2.2⟩] }
          let acc2 := hPushRaw acc1 id
          { acc2 with items := mput acc2.items kvp.1 id }) c2
        some (heapInit c3)
      else some c2))

/-!
Well-formedness invariants.  `SeqOK`: every heap slot holds a valid arena id
and no wrapper sits in two slots.  `IdxOK`: every live wrapper's stored index
is its actual heap position (the pointer bookkeeping of `Swap`).  `MapOK`: the
map is a finite map whose bindings point exactly at the wrappers reachable
from the heap, binding each one under its own key.  `HeapOK`: the binary-heap
order on priorities.  `Inv` adds the capacity bounds. -/

/-- SeqOK: heap slots hold valid, pairwise distinct arena ids. -/
def SeqOK (c : Cache κ ν) : Prop :=
  (∀ id ∈ c.seq, id < c.arena.length) ∧ c.seq.Nodup

/-- IdxOK: each live wrapper's stored index equals its heap position. -/
def IdxOK (c : Cache κ ν) : Prop :=
  ∀ pos, pos < c.seq.length → (wAt c pos).index = (pos : Int)

/-- MapOK: the key map and the heap agree — keys are unambiguous, every
binding points at a heap-reachable wrapper carrying that key, and every
heap-reachable wrapper is bound under its key. -/
def MapOK (c : Cache κ ν) : Prop :=
  (c.items.map Prod.fst).Nodup ∧
  (∀ p ∈ c.items, p.2 ∈ c.seq ∧ (getW c p.2).key = p.1) ∧
  (∀ id ∈ c.seq, ((getW c id).key, id) ∈ c.items)

/-- HeapOK: every non-root heap position sorts no earlier than its parent. -/
def HeapOK (c : Cache κ ν) : Prop :=
  ∀ pos, pos < c.seq.length → 0 < pos → prioAt c ((pos - 1) / 2) ≤ prioAt c pos

/-- WF: structural well-formedness (everything except the heap order and the
capacity bound). -/
def WF (c : Cache κ ν) : Prop := SeqOK c ∧ IdxOK c ∧ MapOK c

/-- Inv: the full invariant of reachable states of the clamping variants. -/
def Inv (c : Cache κ ν) : Prop :=
  WF c ∧ HeapOK c ∧ 0 ≤ c.capacity ∧ (c.items.length : Int) ≤ c.capacity

instance (c : Cache κ ν) : Decidable (SeqOK c) :=
  decidable_of_iff ((∀ id ∈ c.seq, id < c.arena.length) ∧ c.seq.Nodup) Iff.rfl

instance (c : Cache κ ν) : Decidable (IdxOK c) :=
  decidable_of_iff (∀ pos, pos < c.seq.length → (wAt c pos).index = (pos : Int))
    Iff.rfl

instance (c : Cache κ ν) : Decidable (MapOK c) :=
  decidable_of_iff ((c.items.map Prod.fst).Nodup ∧
    (∀ p ∈ c.items, p.2 ∈ c.seq ∧ (getW c p.2).key = p.1) ∧
    (∀ id ∈ c.seq, ((getW c id).key, id) ∈ c.items)) Iff.rfl

instance (c : Cache κ ν) : Decidable (HeapOK c) :=
  decidable_of_iff
    (∀ pos, pos < c.seq.length → 0 < pos → prioAt c ((pos - 1) / 2) ≤ prioAt c pos)
    Iff.rfl

instance (c : Cache κ ν) : Decidable (WF c) :=
  decidable_of_iff (SeqOK c ∧ IdxOK c ∧ MapOK c) Iff.rfl

instance (c : Cache κ ν) : Decidable (Inv c) :=
  decidable_of_iff
    (WF c ∧ HeapOK c ∧ 0 ≤ c.capacity ∧ (c.items.length : Int) ≤ c.capacity)
    Iff.rfl

/-- A small well-formed state used to instantiate the specifications on
concrete inputs: three entries with priorities 1, 2, 3. -/
def demoCache : Cache Nat Nat :=
  { capacity := 3,
    arena := [⟨0, 1, 11, 1⟩, ⟨1, 2, 22, 2⟩, ⟨2, 3, 33, 3⟩],
    seq := [0, 1, 2],
    items := [(1, 0), (2, 1), (3, 2)] }

/-!
Lock discipline.  Each public operation is abstracted to its sequence of
synchronisation events and state mutations, read off the source control flow
(one `mutate` per site that writes the map, the heap, or the capacity field).
`mutationsLocked` checks that every mutation happens while the exclusive
write lock is held.
-/

/-- Synchronisation events of one public call: write lock/unlock, read
lock/unlock, and a mutation of the map, the heap, or the capacity. -/
inductive LockEv
  | lockW
  | unlockW
  | lockR
  | unlockR
  | mutate
deriving DecidableEq, Repr

/-- Scan of an event trace with the current write-lock depth. -/
def mutationsLockedGo : Int → List LockEv → Bool
  | _, [] => true
  | d, e :: rest =>
      match e with
      | .lockW => mutationsLockedGo (d + 1) rest
      | .unlockW => mutationsLockedGo (d - 1) rest
      | .lockR => mutationsLockedGo d rest
      | .unlockR => mutationsLockedGo d rest
      | .mutate => if d > 0 then mutationsLockedGo d rest else false

/-- Every mutation in the trace happens under the exclusive write lock. -/
def mutationsLocked (t : List LockEv) : Bool := mutationsLockedGo 0 t

/-- `Add` of `part_000` (new-key path with eviction): `c.mutex.Lock()`,
deferred `Unlock()`, and in between the eviction, the heap push and the map
store. -/
def addTrace000 : List LockEv :=
  [.lockW, .mutate, .mutate, .mutate, .unlockW]

/-- `Remove` of `part_000`/`part_002` (present key): lock, map delete and
`heap.Remove`, unlock. -/
def removeTrace000 : List LockEv :=
  [.lockW, .mutate, .mutate, .unlockW]

/-- `Evict` of `part_000`/`part_002`: lock, pop and map delete, unlock. -/
def evictTrace000 : List LockEv :=
  [.lockW, .mutate, .mutate, .unlockW]

/-- `Purge` of `part_000`/`part_002`: lock, replace map and heap, unlock. -/
def purgeTrace000 : List LockEv :=
  [.lockW, .mutate, .unlockW]

/-- `SetCapacity`/`ChangeCapacity` of `part_000`/`part_002`: lock, eviction
and capacity store, unlock. -/
def setCapacityTrace000 : List LockEv :=
  [.lockW, .mutate, .mutate, .unlockW]

/-- `Add` of `part_002` (same new-key path): the method takes no lock at all —
the eviction, the heap push and the map store run with write-lock depth 0. -/
def addTrace002 : List LockEv :=
  [.mutate, .mutate, .mutate]

end Heapcache

namespace Heapcache

variable {κ ν : Type} [DecidableEq κ] [Inhabited κ] [Inhabited ν]

/-! Association-list map lemmas. -/

theorem mlookup_eq_none_iff {m : List (κ × Nat)} {k : κ} :
    mlookup m k = none ↔ ∀ p ∈ m, p.1 ≠ k := by
  induction m with
  | nil => simp [mlookup]
  | cons q rest ih =>
      obtain ⟨k', id'⟩ := q
      by_cases h : k' = k <;> simp [mlookup, h, ih]

theorem mlookup_mem {m : List (κ × Nat)} {k : κ} {id : Nat}
    (h : mlookup m k = some id) : (k, id) ∈ m := by
  induction m with
  | nil => simp [mlookup] at h
  | cons q rest ih =>
      obtain ⟨k', id'⟩ := q
      by_cases hk : k' = k
      · simp [mlookup, hk] at h
        simp [hk, h]
      · simp [mlookup, hk] at h
        exact List.mem_cons_of_mem _ (ih h)

theorem mem_mlookup {m : List (κ × Nat)} {k : κ} {id : Nat}
    (hnd : (m.map Prod.fst).Nodup) (h : (k, id) ∈ m) : mlookup m k = some id := by
  induction m with
  | nil => simp at h
  | cons q rest ih =>
      obtain ⟨k', id'⟩ := q
      simp only [List.map_cons, List.nodup_cons] at hnd
      rcases List.mem_cons.1 h with h1 | h1
      · have hk : k' = k := (Prod.ext_iff.1 h1).1.symm
        have hid : id' = id := (Prod.ext_iff.1 h1).2.symm
        simp [mlookup, hk, hid]
      · have hk : k' ≠ k := by
          intro hkk
          exact hnd.1 (hkk ▸ (List.mem_map.2 ⟨(k, id), h1, rfl⟩))
        simp [mlookup, hk, ih hnd.2 h1]

theorem mlookup_isSome_iff {m : List (κ × Nat)} {k : κ} :
    (mlookup m k).isSome ↔ ∃ p ∈ m, p.1 = k := by
  rcases h : mlookup m k with _ | id
  · simp only [h, Option.isSome_none, Bool.false_eq_true, false_iff]
    rintro ⟨p, hp, hpk⟩
    exact (mlookup_eq_none_iff.1 h) p hp hpk
  · simp only [h, Option.isSome_some, true_iff]
    exact ⟨(k, id), mlookup_mem h, rfl⟩

theorem mput_absent {m : List (κ × Nat)} {k : κ} (h : mlookup m k = none)
    (id : Nat) : mput m k id = m ++ [(k, id)] := by
  induction m with
  | nil => simp [mput]
  | cons q rest ih =>
      obtain ⟨k', id'⟩ := q
      by_cases hk : k' = k
      · simp [mlookup, hk] at h
      · simp only [mlookup, if_neg hk] at h
        simp [mput, hk, ih h]

theorem merase_absent {m : List (κ × Nat)} {k : κ} (h : mlookup m k = none) :
    merase m k = m := by
  have := mlookup_eq_none_iff.1 h
  exact List.filter_eq_self.2 (fun p hp => by simpa using this p hp)

theorem merase_subset {m : List (κ × Nat)} {k : κ} {p : κ × Nat}
    (h : p ∈ merase m k) : p ∈ m ∧ p.1 ≠ k := by
  have := List.mem_filter.1 h
  exact ⟨this.1, by simpa using this.2⟩

theorem mem_merase {m : List (κ × Nat)} {k : κ} {p : κ × Nat}
    (h : p ∈ m) (hne : p.1 ≠ k) : p ∈ merase m k :=
  List.mem_filter.2 ⟨h, by simpa using hne⟩

theorem merase_keys_nodup {m : List (κ × Nat)} {k : κ}
    (h : (m.map Prod.fst).Nodup) : ((merase m k).map Prod.fst).Nodup :=
  List.Nodup.sublist (List.Sublist.map Prod.fst (List.filter_sublist m)) h

theorem merase_length_present {m : List (κ × Nat)} {k : κ} {id : Nat}
    (hnd : (m.map Prod.fst).Nodup) (h : (k, id) ∈ m) :
    (merase m k).length + 1 = m.length := by
  induction m with
  | nil => simp at h
  | cons q rest ih =>
      obtain ⟨k', id'⟩ := q
      simp only [List.map_cons, List.nodup_cons] at hnd
      rcases List.mem_cons.1 h with h1 | h1
      · have hk : k' = k := (congrArg Prod.fst h1).symm
        have hrest : merase rest k = rest := by
          apply merase_absent
          apply mlookup_eq_none_iff.2
          intro p hp hpk
          have hmem : p.1 ∈ rest.map Prod.fst := List.mem_map.2 ⟨p, hp, rfl⟩
          rw [hpk, ← hk] at hmem
          exact hnd.1 hmem
        have hstep : merase ((k', id') :: rest) k = merase rest k := by
          simp [merase, List.filter_cons, hk]
        rw [hstep, hrest, List.length_cons]
      · have hk : k' ≠ k := by
          intro hkk
          have hmem : (k, id).1 ∈ rest.map Prod.fst := List.mem_map.2 ⟨(k, id), h1, rfl⟩
          rw [show (k, id).1 = k from rfl, ← hkk] at hmem
          exact hnd.1 hmem
        have hstep : merase ((k', id') :: rest) k = (k', id') :: merase rest k := by
          simp [merase, List.filter_cons, hk]
        have := ih hnd.2 h1
        rw [hstep, List.length_cons, List.length_cons]
        omega

theorem mlookup_merase {m : List (κ × Nat)} {k k' : κ} (hne : k' ≠ k) :
    mlookup (merase m k) k' = mlookup m k' := by
  induction m with
  | nil => simp [merase]
  | cons q rest ih =>
      obtain ⟨k0, id0⟩ := q
      by_cases hk : k0 = k
      · simpa [merase, List.filter_cons, hk, mlookup, Ne.symm hne] using ih
      · by_cases hk' : k0 = k'
        · simp [merase, List.filter_cons, hk, mlookup, hk', hne]
        · simpa [merase, List.filter_cons, hk, mlookup, hk'] using ih

theorem mlookup_merase_self {m : List (κ × Nat)} {k : κ} :
    mlookup (merase m k) k = none := by
  apply mlookup_eq_none_iff.2
  intro p hp
  exact (merase_subset hp).2

theorem mlookup_mput_self {m : List (κ × Nat)} {k : κ} {id : Nat} :
    mlookup (mput m k id) k = some id := by
  induction m with
  | nil => simp [mput, mlookup]
  | cons q rest ih =>
      obtain ⟨k0, id0⟩ := q
      by_cases hk : k0 = k
      · simp [mput, hk, mlookup]
      · simp [mput, hk, mlookup, ih]

theorem mlookup_mput_ne {m : List (κ × Nat)} {k k' : κ} {id : Nat} (hne : k' ≠ k) :
    mlookup (mput m k id) k' = mlookup m k' := by
  induction m with
  | nil => simp [mput, mlookup, Ne.symm hne]
  | cons q rest ih =>
      obtain ⟨k0, id0⟩ := q
      by_cases hk : k0 = k
      · simp [mput, hk, mlookup, Ne.symm hne, hk ▸ hk]
      · by_cases hk' : k0 = k'
        · simp [mput, hk, mlookup, hk', hne]
        · simp [mput, hk, mlookup, hk', ih]

theorem mem_mput {m : List (κ × Nat)} {k : κ} {id : Nat} {p : κ × Nat}
    (hnd : (m.map Prod.fst).Nodup) (h : p ∈ mput m k id) :
    p = (k, id) ∨ (p ∈ m ∧ p.1 ≠ k) := by
  induction m with
  | nil => simpa [mput] using h
  | cons q rest ih =>
      obtain ⟨k0, id0⟩ := q
      simp only [List.map_cons, List.nodup_cons] at hnd
      by_cases hk : k0 = k
      · simp only [mput, hk, if_pos] at h
        rcases List.mem_cons.1 h with h1 | h1
        · exact Or.inl h1
        · refine Or.inr ⟨List.mem_cons_of_mem _ h1, fun hpk => ?_⟩
          exact hnd.1 (hk ▸ hpk ▸ List.mem_map.2 ⟨p, h1, rfl⟩)
      · simp only [mput, hk, if_neg, not_false_iff] at h
        rcases List.mem_cons.1 h with h1 | h1
        · exact Or.inr ⟨h1 ▸ List.mem_cons_self _ _, by simp [h1, hk]⟩
        · rcases ih hnd.2 h1 with h2 | h2
          · exact Or.inl h2
          · exact Or.inr ⟨List.mem_cons_of_mem _ h2.1, h2.2⟩

theorem mput_keys_nodup {m : List (κ × Nat)} {k : κ} {id : Nat}
    (h : (m.map Prod.fst).Nodup) : ((mput m k id).map Prod.fst).Nodup := by
  induction m with
  | nil => simp [mput]
  | cons q rest ih =>
      obtain ⟨k0, id0⟩ := q
      simp only [List.map_cons, List.nodup_cons] at h
      by_cases hk : k0 = k
      · simp only [mput, hk, if_pos, List.map_cons, List.nodup_cons]
        exact ⟨hk ▸ h.1, h.2⟩
      · simp only [mput, hk, if_neg, not_false_iff, List.map_cons, List.nodup_cons]
        refine ⟨fun hmem => ?_, ih h.2⟩
        obtain ⟨p, hp, hpk⟩ := List.mem_map.1 hmem
        rcases mem_mput h.2 hp with h1 | h1
        · exact hk (by rw [← hpk, h1])
        · exact h.1 (List.mem_map.2 ⟨p, h1.1, hpk⟩)

theorem mput_length_present {m : List (κ × Nat)} {k : κ} {id id0 : Nat}
    (h : mlookup m k = some id0) : (mput m k id).length = m.length := by
  induction m with
  | nil => simp [mlookup] at h
  | cons q rest ih =>
      obtain ⟨k1, id1⟩ := q
      by_cases hk : k1 = k
      · simp [mput, hk]
      · simp only [mlookup, if_neg hk] at h
        simp [mput, hk, ih h]

/-! Basic state lemmas: arena reads against writes, and the `Swap`
characterisations that drive all heap reasoning. -/

/-- Payload of a wrapper: everything except the bookkeeping index. -/
def pay (w : Wrapper κ ν) : κ × ν × Int := (w.key, w.value, w.prio)

theorem getW_setW (c : Cache κ ν) (id : Nat) (w : Wrapper κ ν) (id' : Nat) :
    getW (setW c id w) id' =
      if id = id' ∧ id < c.arena.length then w else getW c id' := by
  simp only [getW, setW, List.getD_eq_getElem?_getD, List.getElem?_set]
  by_cases h1 : id = id'
  · subst h1
    by_cases h2 : id < c.arena.length
    · simp [h2]
    · simp [h2, List.getElem?_eq_none (Nat.le_of_not_lt h2)]
  · simp [h1]

theorem getW_setWindex (c : Cache κ ν) (id : Nat) (i : Int) (id' : Nat) :
    getW (setWindex c id i) id' =
      if id = id' ∧ id < c.arena.length then { getW c id with index := i }
      else getW c id' := by
  simp [setWindex, getW_setW]

theorem pay_getW_setWindex (c : Cache κ ν) (id : Nat) (i : Int) (id' : Nat) :
    pay (getW (setWindex c id i) id') = pay (getW c id') := by
  rw [getW_setWindex]
  by_cases h : id = id' ∧ id < c.arena.length
  · rw [if_pos h, ← h.1]
    rfl
  · rw [if_neg h]

theorem widAt_eq_getElem (c : Cache κ ν) {i : Nat} (h : i < c.seq.length) :
    widAt c i = c.seq[i] := List.getD_eq_getElem _ _ h

theorem widAt_mem (c : Cache κ ν) {i : Nat} (h : i < c.seq.length) :
    widAt c i ∈ c.seq := by
  rw [widAt_eq_getElem c h]
  exact List.getElem_mem h

theorem widAt_inj (c : Cache κ ν) (hnd : c.seq.Nodup) {i j : Nat}
    (hi : i < c.seq.length) (hj : j < c.seq.length)
    (h : widAt c i = widAt c j) : i = j := by
  rw [widAt_eq_getElem c hi, widAt_eq_getElem c hj] at h
  exact (List.Nodup.getElem_inj_iff hnd).1 h

theorem hswap_capacity (c : Cache κ ν) (i j : Nat) :
    (hswap c i j).capacity = c.capacity := rfl

theorem hswap_items (c : Cache κ ν) (i j : Nat) :
    (hswap c i j).items = c.items := rfl

theorem hswap_arena_length (c : Cache κ ν) (i j : Nat) :
    (hswap c i j).arena.length = c.arena.length := by
  simp [hswap, setWindex, setW]

theorem hswap_seq (c : Cache κ ν) (i j : Nat) :
    (hswap c i j).seq = (c.seq.set i (widAt c j)).set j (widAt c i) := rfl

theorem hswap_seq_length (c : Cache κ ν) (i j : Nat) :
    (hswap c i j).seq.length = c.seq.length := by
  simp [hswap_seq]

theorem getD_set_set (l : List Nat) {i j : Nat} (hi : i < l.length)
    (hj : j < l.length) (a b : Nat) (pos : Nat) :
    ((l.set i b).set j a).getD pos 0 =
      if pos = j then a else if pos = i then b else l.getD pos 0 := by
  rw [List.getD_eq_getElem?_getD, List.getElem?_set, List.getElem?_set]
  by_cases h1 : pos = j
  · subst h1
    simp [hj]
  · by_cases h2 : pos = i
    · subst h2
      simp [Ne.symm h1, hi, h1]
    · simp [Ne.symm h1, Ne.symm h2, h1, h2, List.getD_eq_getElem?_getD]

theorem hswap_widAt (c : Cache κ ν) {i j : Nat} (hi : i < c.seq.length)
    (hj : j < c.seq.length) (pos : Nat) :
    widAt (hswap c i j) pos =
      if pos = j then widAt c i
      else if pos = i then widAt c j
      else widAt c pos := by
  simp only [widAt, hswap_seq]
  exact getD_set_set c.seq hi hj _ _ pos

theorem hswap_seq_perm (c : Cache κ ν) {i j : Nat} (hi : i < c.seq.length)
    (hj : j < c.seq.length) : (hswap c i j).seq.Perm c.seq := by
  rw [List.perm_iff_count]
  intro x
  rw [hswap_seq]
  have hj' : j < (c.seq.set i (widAt c j)).length := by simpa using hj
  rw [List.count_set _ _ _ _ hj', List.count_set _ _ _ _ hi]
  have hgi : c.seq[i] = widAt c i := (widAt_eq_getElem c hi).symm
  have hgj : (c.seq.set i (widAt c j))[j] = widAt c j := by
    rw [List.getElem_set]
    by_cases hij : i = j
    · simp [hij]
    · rw [if_neg hij]
      exact (widAt_eq_getElem c hj).symm
  rw [hgi, hgj]
  have h1 : widAt c i = x → 1 ≤ List.count x c.seq := fun hx =>
    List.count_pos_iff.2 (by rw [← hx]; exact widAt_mem c hi)
  simp only [beq_iff_eq]
  split_ifs with hA hB hB <;>
    first
      | (specialize h1 hA; omega)
      | omega

theorem eq_of_pay_eq {w w' : Wrapper κ ν} (h : pay w = pay w') (x : Int) :
    ({ w with index := x } : Wrapper κ ν) = { w' with index := x } := by
  cases w
  cases w'
  simp only [pay, Prod.mk.injEq] at h
  simp [h.1, h.2.1, h.2.2]

theorem getW_hswap (c : Cache κ ν) {i j : Nat}
    (ha : widAt c i < c.arena.length) (hb : widAt c j < c.arena.length)
    (id : Nat) :
    getW (hswap c i j) id =
      if id = widAt c i then { getW c id with index := (j : Int) }
      else if id = widAt c j then { getW c id with index := (i : Int) }
      else getW c id := by
  have e1 : hswap c i j = setWindex (setWindex
      { c with seq := (c.seq.set i (widAt c j)).set j (widAt c i) }
      (widAt c j) (i : Int)) (widAt c i) (j : Int) := rfl
  have hg1 : ∀ id', getW { c with seq := (c.seq.set i (widAt c j)).set j (widAt c i) } id'
      = getW c id' := fun _ => rfl
  have harena2 : (setWindex { c with seq := (c.seq.set i (widAt c j)).set j (widAt c i) }
      (widAt c j) (i : Int)).arena.length = c.arena.length := by
    simp [setWindex, setW]
  rw [e1, getW_setWindex, harena2]
  by_cases h1 : id = widAt c i
  · rw [if_pos ⟨h1.symm, ha⟩, if_pos h1, ← h1]
    exact eq_of_pay_eq
      (by rw [pay_getW_setWindex]; exact congrArg pay (hg1 id)) _
  · rw [if_neg (fun hc => h1 hc.1.symm), if_neg h1, getW_setWindex]
    by_cases h2 : id = widAt c j
    · rw [if_pos ⟨h2.symm, by exact hb⟩, if_pos h2, hg1, ← h2]
    · rw [if_neg (fun hc => h2 hc.1.symm), if_neg h2, hg1]

theorem pay_getW_hswap (c : Cache κ ν) (i j id : Nat) :
    pay (getW (hswap c i j) id) = pay (getW c id) := by
  show pay (getW (setWindex (setWindex _ _ _) _ _) id) = _
  rw [pay_getW_setWindex, pay_getW_setWindex]
  rfl

theorem prio_getW_hswap (c : Cache κ ν) (i j id : Nat) :
    (getW (hswap c i j) id).prio = (getW c id).prio :=
  congrArg (fun t => t.2.2) (pay_getW_hswap c i j id)

theorem key_getW_hswap (c : Cache κ ν) (i j id : Nat) :
    (getW (hswap c i j) id).key = (getW c id).key :=
  congrArg (fun t => t.1) (pay_getW_hswap c i j id)

theorem prioAt_hswap (c : Cache κ ν) {i j : Nat} (hi : i < c.seq.length)
    (hj : j < c.seq.length) (pos : Nat) :
    prioAt (hswap c i j) pos =
      if pos = j then prioAt c i
      else if pos = i then prioAt c j
      else prioAt c pos := by
  unfold prioAt wAt
  rw [hswap_widAt c hi hj pos]
  by_cases h1 : pos = j
  · rw [if_pos h1, if_pos h1, prio_getW_hswap]
  · rw [if_neg h1, if_neg h1]
    by_cases h2 : pos = i
    · rw [if_pos h2, if_pos h2, prio_getW_hswap]
    · rw [if_neg h2, if_neg h2, prio_getW_hswap]

/-- PermEq: the relation left intact by the pure reordering steps inside the
heap (swaps, sift-up, sift-down, init): capacity, map, arena size and all
wrapper payloads are untouched, and the heap sequence is permuted. -/
def PermEq (c' c : Cache κ ν) : Prop :=
  c'.capacity = c.capacity ∧ c'.items = c.items ∧
  c'.arena.length = c.arena.length ∧ c'.seq.Perm c.seq ∧
  ∀ id, pay (getW c' id) = pay (getW c id)

theorem permEq_refl (c : Cache κ ν) : PermEq c c :=
  ⟨rfl, rfl, rfl, List.Perm.refl _, fun _ => rfl⟩

theorem permEq_trans {c₁ c₂ c₃ : Cache κ ν} (h1 : PermEq c₁ c₂)
    (h2 : PermEq c₂ c₃) : PermEq c₁ c₃ :=
  ⟨h1.1.trans h2.1, h1.2.1.trans h2.2.1, h1.2.2.1.trans h2.2.2.1,
    h1.2.2.2.1.trans h2.2.2.2.1,
    fun id => (h1.2.2.2.2 id).trans (h2.2.2.2.2 id)⟩

theorem hswap_permEq (c : Cache κ ν) {i j : Nat} (hi : i < c.seq.length)
    (hj : j < c.seq.length) : PermEq (hswap c i j) c :=
  ⟨hswap_capacity c i j, hswap_items c i j, hswap_arena_length c i j,
    hswap_seq_perm c hi hj, pay_getW_hswap c i j⟩

theorem seqOK_of_permEq {c' c : Cache κ ν} (h : PermEq c' c) (hs : SeqOK c) :
    SeqOK c' := by
  constructor
  · intro id hid
    rw [h.2.2.1]
    exact hs.1 id (h.2.2.2.1.mem_iff.1 hid)
  · exact h.2.2.2.1.nodup_iff.2 hs.2

theorem key_of_permEq {c' c : Cache κ ν} (h : PermEq c' c) (id : Nat) :
    (getW c' id).key = (getW c id).key :=
  congrArg (fun t => t.1) (h.2.2.2.2 id)

theorem mapOK_of_permEq {c' c : Cache κ ν} (h : PermEq c' c) (hm : MapOK c) :
    MapOK c' := by
  refine ⟨h.2.1 ▸ hm.1, ?_, ?_⟩
  · intro p hp
    rw [h.2.1] at hp
    obtain ⟨hmem, hkey⟩ := hm.2.1 p hp
    exact ⟨h.2.2.2.1.mem_iff.2 hmem, (key_of_permEq h p.2).trans hkey⟩
  · intro id hid
    rw [h.2.1, key_of_permEq h id]
    exact hm.2.2 id (h.2.2.2.1.mem_iff.1 hid)

/-! Structural lemmas about the sift loops: they permute the heap sequence,
keep every payload, and maintain the index bookkeeping. -/

theorem parent_lt {j : Nat} (h : (j - 1) / 2 ≠ j) : (j - 1) / 2 < j := by
  rcases Nat.eq_zero_or_pos j with h0 | h0
  · subst h0
    simp at h
  · calc (j - 1) / 2 ≤ j - 1 := Nat.div_le_self _ _
      _ < j := by omega

theorem hup_eq (c : Cache κ ν) (j : Nat) :
    hup c j = if (j - 1) / 2 = j then c
      else if hLess c j ((j - 1) / 2) then hup (hswap c ((j - 1) / 2) j) ((j - 1) / 2)
      else c := by
  rw [hup]
  rfl

theorem hdownGo_eq (c : Cache κ ν) (i n : Nat) :
    hdownGo c i n = if 2 * i + 1 < n then
      (if hLess c (childSel c i n) i
       then hdownGo (hswap c i (childSel c i n)) (childSel c i n) n
       else (c, i))
    else (c, i) := by
  rw [hdownGo]
  rfl

theorem childSel_cases (c : Cache κ ν) (i n : Nat) :
    childSel c i n = 2 * i + 1 ∨ childSel c i n = 2 * i + 2 := by
  unfold childSel
  split
  · exact Or.inr rfl
  · exact Or.inl rfl

theorem childSel_lt (c : Cache κ ν) {i n : Nat} (h : 2 * i + 1 < n) :
    childSel c i n < n := by
  unfold childSel
  split <;> omega

theorem childSel_gt (c : Cache κ ν) (i n : Nat) : i < childSel c i n := by
  unfold childSel
  split <;> omega

theorem childSel_parent (c : Cache κ ν) (i n : Nat) :
    (childSel c i n - 1) / 2 = i := by
  rcases childSel_cases c i n with h | h <;> rw [h] <;> omega

theorem childSel_min (c : Cache κ ν) {i n : Nat} (_h : 2 * i + 1 < n) :
    prioAt c (childSel c i n) ≤ prioAt c (2 * i + 1) ∧
      (2 * i + 2 < n → prioAt c (childSel c i n) ≤ prioAt c (2 * i + 2)) := by
  unfold childSel
  split
  · rename_i hcond
    have : prioAt c (2 * i + 2) < prioAt c (2 * i + 1) := by
      have := hcond.2
      simpa [hLess] using this
    exact ⟨le_of_lt this, fun _ => le_refl _⟩
  · rename_i hcond
    refine ⟨le_refl _, fun h2 => ?_⟩
    have : ¬ prioAt c (2 * i + 2) < prioAt c (2 * i + 1) := by
      intro hlt
      exact hcond ⟨h2, by simpa [hLess] using hlt⟩
    omega

theorem idxOK_hswap {c : Cache κ ν} {i j : Nat} (hs : SeqOK c) (hidx : IdxOK c)
    (hi : i < c.seq.length) (hj : j < c.seq.length) : IdxOK (hswap c i j) := by
  intro pos hpos
  rw [hswap_seq_length] at hpos
  have ha : widAt c i < c.arena.length := hs.1 _ (widAt_mem c hi)
  have hb : widAt c j < c.arena.length := hs.1 _ (widAt_mem c hj)
  unfold wAt
  rw [hswap_widAt c hi hj pos]
  by_cases h1 : pos = j
  · rw [if_pos h1, getW_hswap c ha hb, if_pos rfl, h1]
  · rw [if_neg h1]
    by_cases h2 : pos = i
    · have hne : widAt c j ≠ widAt c i := fun he =>
        h1 (h2.trans (widAt_inj c hs.2 hj hi he).symm)
      rw [if_pos h2, getW_hswap c ha hb, if_neg hne, if_pos rfl, h2]
    · have hne1 : widAt c pos ≠ widAt c i := fun he => h2 (widAt_inj c hs.2 hpos hi he)
      have hne2 : widAt c pos ≠ widAt c j := fun he => h1 (widAt_inj c hs.2 hpos hj he)
      rw [if_neg h2, getW_hswap c ha hb, if_neg hne1, if_neg hne2]
      exact hidx pos hpos

theorem hup_permEq : ∀ (c : Cache κ ν) (j : Nat), j < c.seq.length →
    PermEq (hup c j) c := by
  intro c j
  induction c, j using hup.induct with
  | case1 c j pi hij =>
      intro _
      rw [hup_eq, if_pos (show (j - 1) / 2 = j from hij)]
      exact permEq_refl c
  | case2 c j pi hij hless ih =>
      intro hj
      rw [hup_eq, if_neg (show ¬ (j - 1) / 2 = j from hij),
        if_pos (show hLess c j ((j - 1) / 2) = true from hless)]
      have hi : (j - 1) / 2 < c.seq.length :=
        (parent_lt (show (j - 1) / 2 ≠ j from hij)).trans hj
      have hrec := ih (by rw [hswap_seq_length]; exact hi)
      exact permEq_trans hrec (hswap_permEq c hi hj)
  | case3 c j pi hij hless =>
      intro _
      rw [hup_eq, if_neg (show ¬ (j - 1) / 2 = j from hij),
        if_neg (show ¬ hLess c j ((j - 1) / 2) = true from hless)]
      exact permEq_refl c

theorem hup_wf : ∀ (c : Cache κ ν) (j : Nat), j < c.seq.length → SeqOK c →
    IdxOK c → SeqOK (hup c j) ∧ IdxOK (hup c j) := by
  intro c j
  induction c, j using hup.induct with
  | case1 c j pi hij =>
      intro _ hs hidx
      rw [hup_eq, if_pos (show (j - 1) / 2 = j from hij)]
      exact ⟨hs, hidx⟩
  | case2 c j pi hij hless ih =>
      intro hj hs hidx
      rw [hup_eq, if_neg (show ¬ (j - 1) / 2 = j from hij),
        if_pos (show hLess c j ((j - 1) / 2) = true from hless)]
      have hi : (j - 1) / 2 < c.seq.length :=
        (parent_lt (show (j - 1) / 2 ≠ j from hij)).trans hj
      exact ih (by rw [hswap_seq_length]; exact hi)
        (seqOK_of_permEq (hswap_permEq c hi hj) hs) (idxOK_hswap hs hidx hi hj)
  | case3 c j pi hij hless =>
      intro _ hs hidx
      rw [hup_eq, if_neg (show ¬ (j - 1) / 2 = j from hij),
        if_neg (show ¬ hLess c j ((j - 1) / 2) = true from hless)]
      exact ⟨hs, hidx⟩

theorem hdownGo_permEq : ∀ (c : Cache κ ν) (i n : Nat), n ≤ c.seq.length →
    PermEq (hdownGo c i n).1 c := by
  intro c i n
  induction c, i, n using hdownGo.induct with
  | case1 c i n h1 hless ih =>
      intro hn
      rw [hdownGo_eq, if_pos h1, if_pos hless]
      have hi : i < c.seq.length := by omega
      have hj : childSel c i n < c.seq.length := lt_of_lt_of_le (childSel_lt c h1) hn
      have hrec := ih (by rw [hswap_seq_length]; exact hn)
      exact permEq_trans hrec (hswap_permEq c hi hj)
  | case2 c i n h1 hless =>
      intro _
      rw [hdownGo_eq, if_pos h1, if_neg hless]
      exact permEq_refl c
  | case3 c i n h1 =>
      intro _
      rw [hdownGo_eq, if_neg h1]
      exact permEq_refl c

theorem hdownGo_wf : ∀ (c : Cache κ ν) (i n : Nat), n ≤ c.seq.length → SeqOK c →
    IdxOK c → SeqOK (hdownGo c i n).1 ∧ IdxOK (hdownGo c i n).1 := by
  intro c i n
  induction c, i, n using hdownGo.induct with
  | case1 c i n h1 hless ih =>
      intro hn hs hidx
      rw [hdownGo_eq, if_pos h1, if_pos hless]
      have hi : i < c.seq.length := by omega
      have hj : childSel c i n < c.seq.length := lt_of_lt_of_le (childSel_lt c h1) hn
      exact ih (by rw [hswap_seq_length]; exact hn)
        (seqOK_of_permEq (hswap_permEq c hi hj) hs) (idxOK_hswap hs hidx hi hj)
  | case2 c i n h1 hless =>
      intro _ hs hidx
      rw [hdownGo_eq, if_pos h1, if_neg hless]
      exact ⟨hs, hidx⟩
  | case3 c i n h1 =>
      intro _ hs hidx
      rw [hdownGo_eq, if_neg h1]
      exact ⟨hs, hidx⟩

theorem hdownGo_snd_ge : ∀ (c : Cache κ ν) (i n : Nat), i ≤ (hdownGo c i n).2 := by
  intro c i n
  induction c, i, n using hdownGo.induct with
  | case1 c i n h1 hless ih =>
      rw [hdownGo_eq, if_pos h1, if_pos hless]
      exact le_trans (le_of_lt (childSel_gt c i n)) ih
  | case2 c i n h1 hless =>
      rw [hdownGo_eq, if_pos h1, if_neg hless]
  | case3 c i n h1 =>
      rw [hdownGo_eq, if_neg h1]

/-- HeapUpTo: the binary-heap order among the first `n` heap positions. -/
def HeapUpTo (c : Cache κ ν) (n : Nat) : Prop :=
  ∀ pos, pos < n → 0 < pos → prioAt c ((pos - 1) / 2) ≤ prioAt c pos

theorem heapOK_iff (c : Cache κ ν) : HeapOK c ↔ HeapUpTo c c.seq.length := Iff.rfl

/-- EdgesFrom: heap edges whose parent position is at least `K` hold among the
first `n` positions (Floyd's construction grows this region toward the root). -/
def EdgesFrom (c : Cache κ ν) (K n : Nat) : Prop :=
  ∀ pos, pos < n → 0 < pos → K ≤ (pos - 1) / 2 →
    prioAt c ((pos - 1) / 2) ≤ prioAt c pos

/-- DownPre: precondition of the sift-down loop, relative to the region bound
`K`.  All in-region edges hold except those into the children of the hole `i`,
and the hole's children already fit below the hole's parent. -/
structure DownPre (c : Cache κ ν) (K i n : Nat) : Prop where
  edges : ∀ pos, pos < n → 0 < pos → K ≤ (pos - 1) / 2 → (pos - 1) / 2 ≠ i →
    prioAt c ((pos - 1) / 2) ≤ prioAt c pos
  above : 0 < i → K ≤ (i - 1) / 2 → ∀ pos, pos < n → (pos - 1) / 2 = i →
    prioAt c ((i - 1) / 2) ≤ prioAt c pos

/-- UpPre: precondition of the sift-up loop.  All edges hold except the one
into the hole `j`, and the hole's children fit below the hole's parent. -/
structure UpPre (c : Cache κ ν) (j n : Nat) : Prop where
  edges : ∀ pos, pos < n → 0 < pos → pos ≠ j →
    prioAt c ((pos - 1) / 2) ≤ prioAt c pos
  below : 0 < j → ∀ pos, pos < n → (pos - 1) / 2 = j →
    prioAt c ((j - 1) / 2) ≤ prioAt c pos

theorem childSel_min_child (c : Cache κ ν) {i n pos : Nat} (h : 2 * i + 1 < n)
    (hpos : pos < n) (hp : (pos - 1) / 2 = i) (hpos0 : 0 < pos) :
    prioAt c (childSel c i n) ≤ prioAt c pos := by
  have hmin := childSel_min c h
  have hcases : pos = 2 * i + 1 ∨ pos = 2 * i + 2 := by omega
  rcases hcases with hc | hc
  · rw [hc]
    exact hmin.1
  · rw [hc]
    exact hmin.2 (hc ▸ hpos)

theorem hLess_iff (c : Cache κ ν) (i j : Nat) :
    hLess c i j = true ↔ prioAt c i < prioAt c j := by
  simp [hLess]

theorem hdownGo_stay (c : Cache κ ν) {i n : Nat}
    (hA : ∀ pos, pos < n → 0 < pos → (pos - 1) / 2 = i → prioAt c i ≤ prioAt c pos) :
    hdownGo c i n = (c, i) := by
  rw [hdownGo_eq]
  by_cases h1 : 2 * i + 1 < n
  · rw [if_pos h1]
    have hcs := childSel_lt c h1
    have hlt : ¬ hLess c (childSel c i n) i = true := by
      rw [hLess_iff]
      have := hA (childSel c i n) hcs (by have := childSel_gt c i n; omega)
        (childSel_parent c i n)
      omega
    rw [if_neg hlt]
  · rw [if_neg h1]

/-- Sift-down restores the heap order on the region when the only possible
violations are below the hole. -/
theorem hdownGo_edges (K : Nat) : ∀ (c : Cache κ ν) (i n : Nat),
    n ≤ c.seq.length → K ≤ i → DownPre c K i n →
    EdgesFrom (hdownGo c i n).1 K n := by
  intro c i n
  induction c, i, n using hdownGo.induct with
  | case1 c i n h1 hless ih =>
      intro hn hKi hpre
      rw [hdownGo_eq, if_pos h1, if_pos hless]
      set j := childSel c i n with hj
      have hjn : j < n := childSel_lt c h1
      have hij : i < j := childSel_gt c i n
      have hjpar : (j - 1) / 2 = i := childSel_parent c i n
      have hi' : i < c.seq.length := by omega
      have hj' : j < c.seq.length := by omega
      have hplt : prioAt c j < prioAt c i := (hLess_iff c j i).1 hless
      have hpr : ∀ pos, prioAt (hswap c i j) pos =
          if pos = j then prioAt c i else if pos = i then prioAt c j
          else prioAt c pos := prioAt_hswap c hi' hj'
      apply ih (by rw [hswap_seq_length]; exact hn) (by omega)
      constructor
      · intro pos hpos hpos0 hKp hpj
        rw [hpr ((pos - 1) / 2), hpr pos]
        by_cases hc1 : pos = j
        · subst hc1
          rw [hjpar, if_neg (show i ≠ j by omega), if_pos rfl, if_pos rfl]
          exact le_of_lt hplt
        · by_cases hc2 : pos = i
          · rw [if_neg (show (pos - 1) / 2 ≠ j by omega),
              if_neg (show (pos - 1) / 2 ≠ i by omega),
              if_neg hc1, if_pos hc2]
            rw [show (pos - 1) / 2 = (i - 1) / 2 by rw [hc2]]
            exact hpre.above (by omega)
              (by rw [show (i - 1) / 2 = (pos - 1) / 2 by rw [hc2]]; exact hKp)
              j hjn hjpar
          · rw [if_neg (show pos ≠ j from hc1), if_neg (show pos ≠ i from hc2)]
            by_cases hc3 : (pos - 1) / 2 = i
            · rw [if_neg (show (pos - 1) / 2 ≠ j by omega), if_pos hc3]
              have hmin := childSel_min_child c h1 hpos hc3 hpos0
              rw [← hj] at hmin
              exact hmin
            · rw [if_neg (show (pos - 1) / 2 ≠ j from hpj), if_neg hc3]
              exact hpre.edges pos hpos hpos0 hKp hc3
      · intro hj0 hKj pos hpos hpj
        rw [hpr ((j - 1) / 2), hpr pos, hjpar]
        have hposj : j < pos := by omega
        rw [if_neg (show i ≠ j by omega), if_pos rfl,
          if_neg (show pos ≠ j by omega), if_neg (show pos ≠ i by omega)]
        have hedge := hpre.edges pos hpos (by omega) (by rw [hpj]; omega)
          (by rw [hpj]; omega)
        rw [hpj] at hedge
        exact hedge
  | case2 c i n h1 hless =>
      intro hn hKi hpre
      rw [hdownGo_eq, if_pos h1, if_neg hless]
      intro pos hpos hpos0 hKp
      by_cases hp : (pos - 1) / 2 = i
      · have hnl : ¬ prioAt c (childSel c i n) < prioAt c i :=
          fun h => hless ((hLess_iff c _ _).2 h)
        have hple : prioAt c i ≤ prioAt c (childSel c i n) := by omega
        rw [hp]
        exact le_trans hple (childSel_min_child c h1 hpos hp hpos0)
      · exact hpre.edges pos hpos hpos0 hKp hp
  | case3 c i n h1 =>
      intro hn hKi hpre
      rw [hdownGo_eq, if_neg h1]
      intro pos hpos hpos0 hKp
      by_cases hp : (pos - 1) / 2 = i
      · exfalso
        omega
      · exact hpre.edges pos hpos hpos0 hKp hp

/-- Sift-up restores the heap order when the only possible violation is the
edge into the hole. -/
theorem hup_edges (n : Nat) : ∀ (c : Cache κ ν) (j : Nat), j < n →
    n ≤ c.seq.length → UpPre c j n → HeapUpTo (hup c j) n := by
  intro c j
  induction c, j using hup.induct with
  | case1 c j pi hij =>
      intro hjn hn hpre
      rw [hup_eq, if_pos (show (j - 1) / 2 = j from hij)]
      have hj0 : j = 0 := by omega
      intro pos hpos hpos0
      exact hpre.edges pos hpos hpos0 (by omega)
  | case2 c j pi hij hless ih =>
      intro hjn hn hpre
      rw [hup_eq, if_neg (show ¬ (j - 1) / 2 = j from hij),
        if_pos (show hLess c j ((j - 1) / 2) = true from hless)]
      have hij' : (j - 1) / 2 ≠ j := hij
      have hj0 : 0 < j := by
        rcases Nat.eq_zero_or_pos j with h0 | h0
        · exfalso
          apply hij'
          omega
        · exact h0
      have hilt : (j - 1) / 2 < j := parent_lt hij'
      have hjlen : j < c.seq.length := by omega
      have hilen : (j - 1) / 2 < c.seq.length := by omega
      have hplt : prioAt c j < prioAt c ((j - 1) / 2) :=
        (hLess_iff c j ((j - 1) / 2)).1 hless
      have hpr : ∀ pos, prioAt (hswap c ((j - 1) / 2) j) pos =
          if pos = j then prioAt c ((j - 1) / 2)
          else if pos = (j - 1) / 2 then prioAt c j
          else prioAt c pos := prioAt_hswap c hilen hjlen
      apply ih (show (j - 1) / 2 < n by omega) (by rw [hswap_seq_length]; exact hn)
      constructor
      · intro pos hpos hpos0 hpi
        rw [hpr ((pos - 1) / 2), hpr pos]
        by_cases hc1 : pos = j
        · subst hc1
          rw [if_neg hij', if_pos rfl, if_pos rfl]
          exact le_of_lt hplt
        · by_cases hc2 : (pos - 1) / 2 = j
          · rw [if_pos hc2, if_neg hc1, if_neg (show pos ≠ (j - 1) / 2 by omega)]
            exact hpre.below hj0 pos hpos hc2
          · by_cases hc3 : (pos - 1) / 2 = (j - 1) / 2
            · rw [if_neg hc2, if_pos hc3, if_neg hc1, if_neg hpi]
              have hedge := hpre.edges pos hpos hpos0 hc1
              rw [hc3] at hedge
              exact le_trans (le_of_lt hplt) hedge
            · rw [if_neg hc2, if_neg hc3, if_neg hc1, if_neg hpi]
              exact hpre.edges pos hpos hpos0 hc1
      · intro hi0 pos hpos hppar
        have hposgt : (j - 1) / 2 < pos := by omega
        have hpos0 : 0 < pos := by omega
        rw [hpr (((j - 1) / 2 - 1) / 2), hpr pos]
        have hg : ((j - 1) / 2 - 1) / 2 < (j - 1) / 2 := by omega
        rw [if_neg (show ((j - 1) / 2 - 1) / 2 ≠ j by omega),
          if_neg (show ((j - 1) / 2 - 1) / 2 ≠ (j - 1) / 2 by omega)]
        have hiedge := hpre.edges ((j - 1) / 2) (by omega) hi0 hij'
        by_cases hc1 : pos = j
        · subst hc1
          rw [if_pos rfl]
          exact hiedge
        · rw [if_neg hc1, if_neg (show pos ≠ (j - 1) / 2 by omega)]
          have hedge := hpre.edges pos hpos hpos0 hc1
          rw [hppar] at hedge
          exact le_trans hiedge hedge
  | case3 c j pi hij hless =>
      intro hjn hn hpre
      rw [hup_eq, if_neg (show ¬ (j - 1) / 2 = j from hij),
        if_neg (show ¬ hLess c j ((j - 1) / 2) = true from hless)]
      intro pos hpos hpos0
      by_cases hc : pos = j
      · subst hc
        have : ¬ prioAt c pos < prioAt c ((pos - 1) / 2) :=
          fun h => hless ((hLess_iff c _ _).2 h)
        omega
      · exact hpre.edges pos hpos hpos0 hc

theorem hdownGo_no_move : ∀ (c : Cache κ ν) (i n : Nat),
    (hdownGo c i n).2 = i → (hdownGo c i n).1 = c := by
  intro c i n
  induction c, i, n using hdownGo.induct with
  | case1 c i n h1 hless ih =>
      rw [hdownGo_eq, if_pos h1, if_pos hless]
      intro hsnd
      have := hdownGo_snd_ge (hswap c i (childSel c i n)) (childSel c i n) n
      have := childSel_gt c i n
      omega
  | case2 c i n h1 hless =>
      rw [hdownGo_eq, if_pos h1, if_neg hless]
      intro _
      rfl
  | case3 c i n h1 =>
      rw [hdownGo_eq, if_neg h1]
      intro _
      rfl

/-- Root minimality: under the heap order the root sorts no later than any
position in the region. -/
theorem heapUpTo_root_min {c : Cache κ ν} {n : Nat} (h : HeapUpTo c n) :
    ∀ pos, pos < n → prioAt c 0 ≤ prioAt c pos := by
  intro pos
  induction pos using Nat.strong_induction_on with
  | _ pos ih =>
      intro hpos
      rcases Nat.eq_zero_or_pos pos with h0 | h0
      · subst h0
        exact le_refl _
      · exact le_trans (ih ((pos - 1) / 2) (by omega) (by omega)) (h pos hpos h0)

theorem edgesFrom_zero {c : Cache κ ν} {n : Nat} :
    EdgesFrom c 0 n ↔ HeapUpTo c n := by
  constructor
  · intro h pos hpos hpos0
    exact h pos hpos hpos0 (Nat.zero_le _)
  · intro h pos hpos hpos0 _
    exact h pos hpos hpos0

/-- FixPre: the state reached after one entry (at position `t`) changed its
priority in an otherwise heap-ordered region: all edges not touching `t` hold,
and the old entry's parent still fits below the old entry's children. -/
structure FixPre (c : Cache κ ν) (t n : Nat) : Prop where
  edges : ∀ pos, pos < n → 0 < pos → pos ≠ t → (pos - 1) / 2 ≠ t →
    prioAt c ((pos - 1) / 2) ≤ prioAt c pos
  bridge : 0 < t → ∀ pos, pos < n → (pos - 1) / 2 = t →
    prioAt c ((t - 1) / 2) ≤ prioAt c pos

theorem hdownGo_moves {c : Cache κ ν} {t n : Nat} (h1 : 2 * t + 1 < n)
    (hless : hLess c (childSel c t n) t = true) : t < (hdownGo c t n).2 := by
  rw [hdownGo_eq, if_pos h1, if_pos hless]
  exact lt_of_lt_of_le (childSel_gt c t n) (hdownGo_snd_ge _ _ _)

theorem fixCore_permEq {c : Cache κ ν} {t n : Nat} (htn : t < n)
    (hn : n ≤ c.seq.length) : PermEq (fixCore c t n) c := by
  unfold fixCore hdown
  by_cases hmv : t < (hdownGo c t n).2
  · simp only [hmv, decide_eq_true_eq, if_pos]
    exact hdownGo_permEq c t n hn
  · have heq : (hdownGo c t n).2 = t := by
      have := hdownGo_snd_ge c t n
      omega
    simp only [hmv, decide_eq_true_eq, Bool.false_eq_true, if_neg, hdownGo_no_move c t n heq]
    exact hup_permEq c t (by omega)

theorem fixCore_wf {c : Cache κ ν} {t n : Nat} (htn : t < n)
    (hn : n ≤ c.seq.length) (hs : SeqOK c) (hidx : IdxOK c) :
    SeqOK (fixCore c t n) ∧ IdxOK (fixCore c t n) := by
  unfold fixCore hdown
  by_cases hmv : t < (hdownGo c t n).2
  · simp only [hmv, decide_eq_true_eq, if_pos]
    exact hdownGo_wf c t n hn hs hidx
  · have heq : (hdownGo c t n).2 = t := by
      have := hdownGo_snd_ge c t n
      omega
    simp only [hmv, decide_eq_true_eq, Bool.false_eq_true, if_neg, hdownGo_no_move c t n heq]
    exact hup_wf c t (by omega) hs hidx

/-- The repair step restores the heap order on the region from a `FixPre`
state. -/
theorem fixCore_heap {c : Cache κ ν} {t n : Nat} (htn : t < n)
    (hn : n ≤ c.seq.length) (hpre : FixPre c t n) :
    HeapUpTo (fixCore c t n) n := by
  by_cases hA : ∀ pos, pos < n → 0 < pos → (pos - 1) / 2 = t →
      prioAt c t ≤ prioAt c pos
  · have hstay := hdownGo_stay c hA
    unfold fixCore hdown
    rw [hstay]
    simp only [lt_irrefl, decide_eq_true_eq, Bool.false_eq_true, if_neg]
    apply hup_edges n c t htn hn
    constructor
    · intro pos hpos hpos0 hpt
      by_cases hp : (pos - 1) / 2 = t
      · rw [hp]
        exact hA pos hpos hpos0 hp
      · exact hpre.edges pos hpos hpos0 hpt hp
    · exact hpre.bridge
  · push_neg at hA
    obtain ⟨pos0, hpos0n, hpos00, hpar0, hlt0⟩ := hA
    have h1 : 2 * t + 1 < n := by omega
    have hlessSel : hLess c (childSel c t n) t = true := by
      rw [hLess_iff]
      exact lt_of_le_of_lt (childSel_min_child c h1 hpos0n hpar0 hpos00) hlt0
    have hmv := hdownGo_moves h1 hlessSel
    unfold fixCore hdown
    simp only [hmv, decide_eq_true_eq, if_pos]
    apply edgesFrom_zero.1
    apply hdownGo_edges 0 c t n hn (Nat.zero_le _)
    constructor
    · intro pos hpos hpos1 _ hpt
      by_cases hp : pos = t
      · subst hp
        have ht0 : 0 < pos := hpos1
        exact le_trans (hpre.bridge ht0 pos0 hpos0n hpar0) (le_of_lt hlt0)
      · exact hpre.edges pos hpos hpos1 hp hpt
    · intro ht0 _ pos hpos hpar
      exact hpre.bridge ht0 pos hpos hpar

/-! Positions outside the active range are untouched by the sift loops. -/

theorem hup_widAt_frozen : ∀ (c : Cache κ ν) (j : Nat), j < c.seq.length →
    ∀ pos, j < pos → widAt (hup c j) pos = widAt c pos := by
  intro c j
  induction c, j using hup.induct with
  | case1 c j pi hij =>
      intro _ pos _
      rw [hup_eq, if_pos (show (j - 1) / 2 = j from hij)]
  | case2 c j pi hij hless ih =>
      intro hj pos hpos
      rw [hup_eq, if_neg (show ¬ (j - 1) / 2 = j from hij),
        if_pos (show hLess c j ((j - 1) / 2) = true from hless)]
      have hilt : (j - 1) / 2 < j := parent_lt hij
      have hi : (j - 1) / 2 < c.seq.length := by omega
      rw [ih (by rw [hswap_seq_length]; exact hi) pos (by omega)]
      rw [hswap_widAt c hi hj pos, if_neg (by omega), if_neg (by omega)]
  | case3 c j pi hij hless =>
      intro _ pos _
      rw [hup_eq, if_neg (show ¬ (j - 1) / 2 = j from hij),
        if_neg (show ¬ hLess c j ((j - 1) / 2) = true from hless)]

theorem hdownGo_widAt_frozen : ∀ (c : Cache κ ν) (i n : Nat), n ≤ c.seq.length →
    ∀ pos, n ≤ pos → widAt (hdownGo c i n).1 pos = widAt c pos := by
  intro c i n
  induction c, i, n using hdownGo.induct with
  | case1 c i n h1 hless ih =>
      intro hn pos hpos
      rw [hdownGo_eq, if_pos h1, if_pos hless]
      have hi : i < c.seq.length := by omega
      have hj : childSel c i n < c.seq.length :=
        lt_of_lt_of_le (childSel_lt c h1) hn
      rw [ih (by rw [hswap_seq_length]; exact hn) pos hpos]
      rw [hswap_widAt c hi hj pos,
        if_neg (show pos ≠ childSel c i n by have := childSel_lt c h1; omega),
        if_neg (show pos ≠ i by omega)]
  | case2 c i n h1 hless =>
      intro _ pos _
      rw [hdownGo_eq, if_pos h1, if_neg hless]
  | case3 c i n h1 =>
      intro _ pos _
      rw [hdownGo_eq, if_neg h1]

theorem fixCore_widAt_frozen {c : Cache κ ν} {t n : Nat} (htn : t < n)
    (hn : n ≤ c.seq.length) : ∀ pos, n ≤ pos →
    widAt (fixCore c t n) pos = widAt c pos := by
  intro pos hpos
  unfold fixCore hdown
  by_cases hmv : t < (hdownGo c t n).2
  · simp only [hmv, decide_eq_true_eq, if_pos]
    exact hdownGo_widAt_frozen c t n hn pos hpos
  · have heq : (hdownGo c t n).2 = t := by
      have := hdownGo_snd_ge c t n
      omega
    simp only [hmv, decide_eq_true_eq, Bool.false_eq_true, if_neg,
      hdownGo_no_move c t n heq]
    exact hup_widAt_frozen c t (by omega) pos (by omega)

/-! Raw pop and `heap.Pop`. -/

theorem dropLast_widAt (c : Cache κ ν) (c' : Cache κ ν)
    (hseq : c'.seq = c.seq.dropLast) {pos : Nat} (hpos : pos < c.seq.length - 1) :
    widAt c' pos = widAt c pos := by
  unfold widAt
  rw [hseq, List.dropLast_eq_take, List.getD_eq_getElem?_getD,
    List.getElem?_take, if_pos hpos, List.getD_eq_getElem?_getD]

theorem hPopRaw_spec {c : Cache κ ν} (hne : c.seq ≠ []) (hs : SeqOK c)
    (hidx : IdxOK c) :
    ∃ id c', hPopRaw c = some (id, c') ∧
      id = widAt c (c.seq.length - 1) ∧
      c'.seq = c.seq.dropLast ∧
      c'.capacity = c.capacity ∧ c'.items = c.items ∧
      c'.arena.length = c.arena.length ∧
      (∀ x, pay (getW c' x) = pay (getW c x)) ∧
      SeqOK c' ∧ IdxOK c' ∧
      (HeapUpTo c (c.seq.length - 1) → HeapOK c') := by
  have hlen : 0 < c.seq.length := List.length_pos.2 hne
  have hlast : c.seq.getLast? = some (widAt c (c.seq.length - 1)) := by
    rw [List.getLast?_eq_getElem?,
      List.getElem?_eq_getElem (show c.seq.length - 1 < c.seq.length by omega),
      widAt_eq_getElem c (show c.seq.length - 1 < c.seq.length by omega)]
  set id := widAt c (c.seq.length - 1) with hid
  set c' : Cache κ ν := { setWindex c id (-1) with seq := c.seq.dropLast } with hc'
  have hpop : hPopRaw c = some (id, c') := by
    unfold hPopRaw
    rw [hlast]
  have hseq' : c'.seq = c.seq.dropLast := rfl
  have hcap : c'.capacity = c.capacity := rfl
  have hitems : c'.items = c.items := rfl
  have harena : c'.arena.length = c.arena.length := by
    simp [hc', setWindex, setW]
  have hpay : ∀ x, pay (getW c' x) = pay (getW c x) := by
    intro x
    have : getW c' x = getW (setWindex c id (-1)) x := rfl
    rw [this, pay_getW_setWindex]
  have hlen' : c'.seq.length = c.seq.length - 1 := by
    rw [hseq', List.length_dropLast]
  have hwid : ∀ pos, pos < c.seq.length - 1 → widAt c' pos = widAt c pos :=
    fun pos hpos => dropLast_widAt c c' hseq' hpos
  have hsub : c'.seq.Sublist c.seq := by
    rw [hseq']
    exact List.dropLast_sublist c.seq
  have hs' : SeqOK c' := by
    constructor
    · intro x hx
      rw [harena]
      exact hs.1 x (hsub.subset hx)
    · exact List.Nodup.sublist hsub hs.2
  have hgetW : ∀ x, x ≠ id → getW c' x = getW c x := by
    intro x hx
    show getW (setWindex c id (-1)) x = getW c x
    rw [getW_setWindex, if_neg (fun hcon => hx hcon.1.symm)]
  have hidx' : IdxOK c' := by
    intro pos hpos
    rw [hlen'] at hpos
    unfold wAt
    rw [hwid pos hpos]
    have hne2 : widAt c pos ≠ id := by
      rw [hid]
      intro he
      have := widAt_inj c hs.2 (by omega) (by omega) he
      omega
    rw [hgetW _ hne2]
    exact hidx pos (by omega)
  refine ⟨id, c', hpop, rfl, hseq', hcap, hitems, harena, hpay, hs', hidx', ?_⟩
  intro hh pos hpos hpos0
  rw [hlen'] at hpos
  unfold prioAt wAt
  rw [hwid pos hpos, hwid ((pos - 1) / 2) (by omega)]
  have hp1 : (getW c' (widAt c ((pos - 1) / 2))).prio
      = (getW c (widAt c ((pos - 1) / 2))).prio :=
    congrArg (fun t => t.2.2) (hpay _)
  have hp2 : (getW c' (widAt c pos)).prio = (getW c (widAt c pos)).prio :=
    congrArg (fun t => t.2.2) (hpay _)
  rw [hp1, hp2]
  exact hh pos hpos hpos0

/-- Specification of Go `heap.Pop` on a nonempty well-formed heap: it removes
exactly the root wrapper (the minimum), keeps everything else, and restores
the heap order. -/
theorem heapPop_spec {c : Cache κ ν} (hne : c.seq ≠ []) (hs : SeqOK c)
    (hidx : IdxOK c) (hheap : HeapOK c) :
    ∃ w c', heapPop c = some (w, c') ∧
      pay w = pay (wAt c 0) ∧
      SeqOK c' ∧ IdxOK c' ∧ HeapOK c' ∧
      c'.capacity = c.capacity ∧ c'.items = c.items ∧
      c'.arena.length = c.arena.length ∧
      c'.seq.length = c.seq.length - 1 ∧
      widAt c 0 ∉ c'.seq ∧
      c'.seq.Perm (c.seq.erase (widAt c 0)) ∧
      (∀ x, pay (getW c' x) = pay (getW c x)) := by
  have hlen : 0 < c.seq.length := List.length_pos.2 hne
  have hn1 : c.seq.length - 1 < c.seq.length := by omega
  set n := c.seq.length - 1 with hn
  set c1 := hswap c 0 n with hc1
  have hlen1 : c1.seq.length = c.seq.length := hswap_seq_length c 0 n
  have hperm1 : PermEq c1 c := hswap_permEq c hlen hn1
  have hs1 : SeqOK c1 := seqOK_of_permEq hperm1 hs
  have hidx1 : IdxOK c1 := idxOK_hswap hs hidx hlen hn1
  set c2 := (hdownGo c1 0 n).1 with hc2
  have hnle : n ≤ c1.seq.length := by omega
  have hperm2 : PermEq c2 c1 := hdownGo_permEq c1 0 n hnle
  have hs2 : SeqOK c2 := seqOK_of_permEq hperm2 hs1
  have hidx2 : IdxOK c2 := (hdownGo_wf c1 0 n hnle hs1 hidx1).2
  have hlen2 : c2.seq.length = c.seq.length := by
    rw [hperm2.2.2.2.1.length_eq, hlen1]
  -- the old root now sits in the last slot, untouched by the sift-down
  have hwid2 : widAt c2 n = widAt c 0 := by
    rw [hdownGo_widAt_frozen c1 0 n hnle n (le_refl n)]
    rw [hc1, hswap_widAt c hlen hn1 n, if_pos rfl]
  -- the shrunk region is heap-ordered after the sift-down
  have hheap2 : HeapUpTo c2 n := by
    apply edgesFrom_zero.1
    apply hdownGo_edges 0 c1 0 n hnle (le_refl 0)
    constructor
    · intro pos hpos hpos0 _ hp0
      have hq1 : prioAt c1 pos = prioAt c pos := by
        rw [hc1, prioAt_hswap c hlen hn1 pos, if_neg (by omega), if_neg (by omega)]
      have hq2 : prioAt c1 ((pos - 1) / 2) = prioAt c ((pos - 1) / 2) := by
        rw [hc1, prioAt_hswap c hlen hn1 ((pos - 1) / 2),
          if_neg (by omega), if_neg (by omega)]
      rw [hq1, hq2]
      exact hheap pos (by omega) hpos0
    · intro h0 _
      exact absurd h0 (lt_irrefl 0)
  have hne2 : c2.seq ≠ [] := by
    intro he
    rw [he] at hlen2
    simp at hlen2
    omega
  obtain ⟨id, c3, hpop3, hid3, hseq3, hcap3, hitems3, harena3, hpay3, hs3,
    hidx3, hheap3⟩ := hPopRaw_spec hne2 hs2 hidx2
  have hid0 : id = widAt c 0 := by
    rw [hid3, hlen2, ← hwid2]
  have hfinal : heapPop c = some (getW c3 id, c3) := by
    unfold heapPop
    rw [if_neg (show ¬ c.seq.isEmpty = true by simpa [List.isEmpty_iff] using hne)]
    simp only [hpop3]
  refine ⟨getW c3 id, c3, hfinal, ?_, hs3, hidx3, ?_, ?_, ?_, ?_, ?_, ?_, ?_, ?_⟩
  · rw [hpay3 id, hid0]
    have h1 := hperm2.2.2.2.2 (widAt c 0)
    have h2 := hperm1.2.2.2.2 (widAt c 0)
    unfold wAt
    rw [h1, h2]
  · -- HeapOK c3
    apply hheap3
    intro pos hpos hpos0
    rw [hlen2] at hpos
    exact hheap2 pos hpos hpos0
  · rw [hcap3, hperm2.1, hperm1.1]
  · rw [hitems3, hperm2.2.1, hperm1.2.1]
  · rw [harena3, hperm2.2.2.1, hperm1.2.2.1]
  · rw [hseq3, List.length_dropLast, hlen2]
  · -- the popped id is gone
    intro hmem
    have hcount : List.count id c.seq = 1 :=
      List.count_eq_one_of_mem hs.2 (by rw [hid0]; exact widAt_mem c hlen)
    have hperm21 : c2.seq.Perm c.seq := hperm2.2.2.2.1.trans hperm1.2.2.2.1
    have hcount2 : List.count id c2.seq = 1 := by
      rw [hperm21.count_eq, hcount]
    have hlast2 : c2.seq.getLast? = some id := by
      rw [List.getLast?_eq_getElem?,
        List.getElem?_eq_getElem (show c2.seq.length - 1 < c2.seq.length by omega)]
      rw [hid3]
      rw [← widAt_eq_getElem c2 (show c2.seq.length - 1 < c2.seq.length by omega)]
    have hsplit : c2.seq.dropLast ++ [id] = c2.seq := by
      have hgl : c2.seq.getLast hne2 = id := by
        have := List.getLast_eq_getElem c2.seq hne2
        rw [List.getLast?_eq_getElem?,
          List.getElem?_eq_getElem (show c2.seq.length - 1 < c2.seq.length by omega)]
          at hlast2
        rw [this]
        exact Option.some.inj hlast2
      rw [← hgl]
      exact List.dropLast_append_getLast hne2
    have : List.count id c2.seq.dropLast + 1 = 1 := by
      have hca := List.count_append id c2.seq.dropLast [id]
      rw [hsplit] at hca
      simp only [List.count_singleton, beq_self_eq_true, if_pos] at hca
      omega
    have hzero : List.count id c2.seq.dropLast = 0 := by omega
    rw [hid0] at hzero
    rw [hseq3] at hmem
    have := List.count_pos_iff.2 hmem
    omega
  · -- permutation with the erased sequence
    rw [List.perm_iff_count]
    intro x
    have hperm21 : c2.seq.Perm c.seq := hperm2.2.2.2.1.trans hperm1.2.2.2.1
    have hlast2 : c2.seq.getLast hne2 = id := by
      have hgei := List.getLast_eq_getElem c2.seq hne2
      rw [hgei, hid3, ← widAt_eq_getElem c2 (show c2.seq.length - 1 < c2.seq.length by omega)]
    have hsplit : c2.seq.dropLast ++ [id] = c2.seq := by
      rw [← hlast2]
      exact List.dropLast_append_getLast hne2
    have hca := List.count_append x c2.seq.dropLast [id]
    rw [hsplit, hperm21.count_eq] at hca
    by_cases hx : x = id
    · subst hx
      rw [hseq3]
      have h1 : List.count x (c.seq.erase (widAt c 0)) = List.count x c.seq - 1 := by
        rw [← hid0]
        exact List.count_erase_self x c.seq
      rw [h1]
      simp only [List.count_singleton, beq_self_eq_true, if_pos] at hca
      omega
    · rw [hseq3]
      have h1 : List.count x (c.seq.erase (widAt c 0)) = List.count x c.seq := by
        rw [← hid0]
        exact List.count_erase_of_ne hx c.seq
      rw [h1]
      have : List.count x [id] = 0 := by
        simp [List.count_singleton, hx]
      rw [this] at hca
      omega
  · intro x
    rw [hpay3 x, hperm2.2.2.2.2 x, hperm1.2.2.2.2 x]

theorem dropLast_perm_erase {l : List Nat} (hne : l ≠ []) (hnd : l.Nodup)
    {id : Nat} (hlast : l.getLast hne = id) :
    l.dropLast.Perm (l.erase id) ∧ id ∉ l.dropLast := by
  have hsplit : l.dropLast ++ [id] = l := by
    rw [← hlast]
    exact List.dropLast_append_getLast hne
  have hmem : id ∈ l := by
    rw [← hsplit]
    simp
  have hcount1 : List.count id l = 1 := List.count_eq_one_of_mem hnd hmem
  have hdrop0 : List.count id l.dropLast = 0 := by
    have hca := List.count_append id l.dropLast [id]
    rw [hsplit] at hca
    simp only [List.count_singleton, beq_self_eq_true, if_pos] at hca
    omega
  constructor
  · rw [List.perm_iff_count]
    intro x
    have hca := List.count_append x l.dropLast [id]
    rw [hsplit] at hca
    by_cases hx : x = id
    · subst hx
      rw [List.count_erase_self, hdrop0]
      omega
    · rw [List.count_erase_of_ne hx]
      have hx0 : List.count x [id] = 0 := by
        simp [List.count_singleton, hx]
      rw [hx0] at hca
      omega
  · intro hmem'
    have := List.count_pos_iff.2 hmem'
    omega

/-- Specification of Go `heap.Remove` at a valid position of a well-formed
heap: it removes exactly the wrapper at that position, keeps everything else,
and restores the heap order. -/
theorem heapRemove_spec {c : Cache κ ν} {t : Nat} (ht : t < c.seq.length)
    (hs : SeqOK c) (hidx : IdxOK c) (hheap : HeapOK c) :
    ∃ id c', heapRemove c (t : Int) = some (id, c') ∧
      id = widAt c t ∧
      SeqOK c' ∧ IdxOK c' ∧ HeapOK c' ∧
      c'.capacity = c.capacity ∧ c'.items = c.items ∧
      c'.arena.length = c.arena.length ∧
      c'.seq.length = c.seq.length - 1 ∧
      widAt c t ∉ c'.seq ∧
      c'.seq.Perm (c.seq.erase (widAt c t)) ∧
      (∀ x, pay (getW c' x) = pay (getW c x)) := by
  have hne : c.seq ≠ [] := by
    intro he
    rw [he] at ht
    simp at ht
  have hred : heapRemove c (t : Int) =
      (if c.seq.length - 1 ≠ t then hPopRaw (fixCore (hswap c t (c.seq.length - 1)) t (c.seq.length - 1))
       else hPopRaw c) := by
    unfold heapRemove
    rw [if_neg (by omega), Int.toNat_natCast, if_neg (by omega)]
  by_cases hcase : c.seq.length - 1 ≠ t
  · -- general position: swap with the last slot, repair, raw pop
    have htn : t < c.seq.length - 1 := by omega
    set n := c.seq.length - 1 with hn
    set c1 := hswap c t n with hc1
    have hn1 : n < c.seq.length := by omega
    have hlen1 : c1.seq.length = c.seq.length := hswap_seq_length c t n
    have hperm1 : PermEq c1 c := hswap_permEq c ht hn1
    have hs1 : SeqOK c1 := seqOK_of_permEq hperm1 hs
    have hidx1 : IdxOK c1 := idxOK_hswap hs hidx ht hn1
    have hnle : n ≤ c1.seq.length := by omega
    have hpre : FixPre c1 t n := by
      constructor
      · intro pos hpos hpos0 hpt hppt
        have hq1 : prioAt c1 pos = prioAt c pos := by
          rw [hc1, prioAt_hswap c ht hn1 pos, if_neg (by omega), if_neg hpt]
        have hq2 : prioAt c1 ((pos - 1) / 2) = prioAt c ((pos - 1) / 2) := by
          rw [hc1, prioAt_hswap c ht hn1 ((pos - 1) / 2),
            if_neg (by omega), if_neg hppt]
        rw [hq1, hq2]
        exact hheap pos (by omega) hpos0
      · intro ht0 pos hpos hppar
        have hposgt : t < pos := by omega
        have hq1 : prioAt c1 pos = prioAt c pos := by
          rw [hc1, prioAt_hswap c ht hn1 pos, if_neg (by omega), if_neg (by omega)]
        have hq2 : prioAt c1 ((t - 1) / 2) = prioAt c ((t - 1) / 2) := by
          rw [hc1, prioAt_hswap c ht hn1 ((t - 1) / 2),
            if_neg (by omega), if_neg (by omega)]
        rw [hq1, hq2]
        have hedge1 := hheap t ht ht0
        have hedge2 := hheap pos (by omega) (by omega)
        rw [hppar] at hedge2
        omega
    set cF := fixCore c1 t n with hcF
    have hpermF : PermEq cF c1 := fixCore_permEq htn hnle
    have hsF : SeqOK cF := seqOK_of_permEq hpermF hs1
    have hwfF := fixCore_wf htn hnle hs1 hidx1
    have hheapF : HeapUpTo cF n := fixCore_heap htn hnle hpre
    have hlenF : cF.seq.length = c.seq.length := by
      rw [hpermF.2.2.2.1.length_eq, hlen1]
    have hneF : cF.seq ≠ [] := by
      intro he
      rw [he] at hlenF
      simp at hlenF
      omega
    obtain ⟨id, c', hpop, hid, hseq', hcap', hitems', harena', hpay', hs', hidx', hheap'⟩ :=
      hPopRaw_spec hneF hsF hwfF.2
    have hwidF : widAt cF n = widAt c t := by
      rw [hcF, fixCore_widAt_frozen htn hnle n (le_refl n)]
      rw [hc1, hswap_widAt c ht hn1 n, if_pos rfl]
    have hid0 : id = widAt c t := by
      rw [hid, hlenF, ← hn, hwidF]
    have hlastF : cF.seq.getLast hneF = id := by
      rw [List.getLast_eq_getElem cF.seq hneF, hid,
        ← widAt_eq_getElem cF (show cF.seq.length - 1 < cF.seq.length by omega)]
    obtain ⟨hpe, hnm⟩ := dropLast_perm_erase hneF hsF.2 hlastF
    have hpermF1 : cF.seq.Perm c.seq := hpermF.2.2.2.1.trans hperm1.2.2.2.1
    refine ⟨id, c', ?_, hid0, hs', hidx', ?_, ?_, ?_, ?_, ?_, ?_, ?_, ?_⟩
    · rw [hred, if_pos hcase, hpop]
    · apply hheap'
      intro pos hpos hpos0
      rw [hlenF] at hpos
      exact hheapF pos hpos hpos0
    · rw [hcap', hpermF.1, hperm1.1]
    · rw [hitems', hpermF.2.1, hperm1.2.1]
    · rw [harena', hpermF.2.2.1, hperm1.2.2.1]
    · rw [hseq', List.length_dropLast, hlenF]
    · rw [← hid0]
      rw [hseq']
      exact hnm
    · rw [hseq', ← hid0]
      exact hpe.trans (List.Perm.erase id hpermF1)
    · intro x
      rw [hpay' x, hpermF.2.2.2.2 x, hperm1.2.2.2.2 x]
  · -- removing the last slot: plain raw pop
    have heqt : c.seq.length - 1 = t := by omega
    obtain ⟨id, c', hpop, hid, hseq', hcap', hitems', harena', hpay', hs', hidx', hheap'⟩ :=
      hPopRaw_spec hne hs hidx
    have hid0 : id = widAt c t := by
      rw [hid, heqt]
    have hlast : c.seq.getLast hne = id := by
      rw [List.getLast_eq_getElem c.seq hne, hid,
        ← widAt_eq_getElem c (show c.seq.length - 1 < c.seq.length by omega)]
    obtain ⟨hpe, hnm⟩ := dropLast_perm_erase hne hs.2 hlast
    refine ⟨id, c', ?_, hid0, hs', hidx', ?_, hcap', hitems', harena', ?_, ?_, ?_, hpay'⟩
    · rw [hred, if_neg hcase, hpop]
    · apply hheap'
      intro pos hpos hpos0
      exact hheap pos (by omega) hpos0
    · rw [hseq', List.length_dropLast]
    · rw [← hid0, hseq']
      exact hnm
    · rw [hseq', ← hid0]
      exact hpe

/-- Specification of `heap.Push` of a freshly allocated wrapper: the new
wrapper id is its allocation position, it joins the heap, everything else is
kept, and the heap order is restored. -/
theorem heapPushW_spec {c : Cache κ ν} (hs : SeqOK c) (hidx : IdxOK c)
    (hheap : HeapOK c) (w : Wrapper κ ν) :
    (heapPushW c w).1 = c.arena.length ∧
    SeqOK (heapPushW c w).2 ∧ IdxOK (heapPushW c w).2 ∧ HeapOK (heapPushW c w).2 ∧
    (heapPushW c w).2.capacity = c.capacity ∧
    (heapPushW c w).2.items = c.items ∧
    (heapPushW c w).2.arena.length = c.arena.length + 1 ∧
    (heapPushW c w).2.seq.length = c.seq.length + 1 ∧
    (heapPushW c w).2.seq.Perm (c.arena.length :: c.seq) ∧
    pay (getW (heapPushW c w).2 c.arena.length) = pay w ∧
    (∀ x, x ≠ c.arena.length → pay (getW (heapPushW c w).2 x) = pay (getW c x)) := by
  set id := c.arena.length with hid
  set c1 : Cache κ ν := { c with arena := c.arena ++ [w] } with hc1
  have hg1id : getW c1 id = w := by
    show (c.arena ++ [w]).getD c.arena.length wjunk = w
    rw [List.getD_append_right _ _ _ _ (le_refl _), Nat.sub_self]
    rfl
  have hg1 : ∀ x, x ≠ id → getW c1 x = getW c x := by
    intro x hx
    show (c.arena ++ [w]).getD x wjunk = c.arena.getD x wjunk
    rcases Nat.lt_or_ge x c.arena.length with hlt | hge
    · exact List.getD_append _ _ _ _ hlt
    · have hgt : c.arena.length + 1 ≤ x := by omega
      rw [List.getD_eq_default _ _ (by simpa using hgt), List.getD_eq_default _ _ hge]
  set c2 := hPushRaw c1 id with hc2
  have hseq2 : c2.seq = c.seq ++ [id] := rfl
  have harena2 : c2.arena.length = c.arena.length + 1 := by
    show ((c1.arena.set id _).length) = c.arena.length + 1
    simp [hc1]
  have hlen2 : c2.seq.length = c.seq.length + 1 := by
    rw [hseq2]
    simp
  have hidlt : id < c1.arena.length := by
    simp [hc1, hid]
  have hg2id : getW c2 id = { w with index := (c.seq.length : Int) } := by
    show getW (setWindex c1 id _) id = _
    rw [getW_setWindex, if_pos ⟨rfl, hidlt⟩, hg1id]
  have hg2 : ∀ x, x ≠ id → getW c2 x = getW c x := by
    intro x hx
    show getW (setWindex c1 id _) x = _
    rw [getW_setWindex, if_neg (fun hcon => hx hcon.1.symm), hg1 x hx]
  have hidnotin : id ∉ c.seq := fun hmem => by
    have := hs.1 id hmem
    omega
  have hwid2 : ∀ pos, pos < c.seq.length → widAt c2 pos = widAt c pos := by
    intro pos hpos
    show (c.seq ++ [id]).getD pos 0 = c.seq.getD pos 0
    exact List.getD_append _ _ _ _ hpos
  have hwid2last : widAt c2 c.seq.length = id := by
    show (c.seq ++ [id]).getD c.seq.length 0 = id
    rw [List.getD_append_right _ _ _ _ (le_refl _), Nat.sub_self]
    rfl
  have hprio2 : ∀ pos, pos < c.seq.length → prioAt c2 pos = prioAt c pos := by
    intro pos hpos
    unfold prioAt wAt
    rw [hwid2 pos hpos]
    have hne : widAt c pos ≠ id := fun he => hidnotin (he ▸ widAt_mem c hpos)
    rw [hg2 _ hne]
  have hs2 : SeqOK c2 := by
    constructor
    · intro x hx
      rw [hseq2] at hx
      rw [harena2]
      rcases List.mem_append.1 hx with h | h
      · have := hs.1 x h
        omega
      · simp at h
        omega
    · rw [hseq2]
      apply (List.perm_append_singleton id c.seq).nodup_iff.2
      exact List.nodup_cons.2 ⟨hidnotin, hs.2⟩
  have hidx2 : IdxOK c2 := by
    intro pos hpos
    rw [hlen2] at hpos
    unfold wAt
    rcases Nat.lt_or_ge pos c.seq.length with hlt | hge
    · rw [hwid2 pos hlt]
      have hne : widAt c pos ≠ id := fun he => hidnotin (he ▸ widAt_mem c hlt)
      rw [hg2 _ hne]
      exact hidx pos hlt
    · have hpos' : pos = c.seq.length := by omega
      rw [hpos', hwid2last, hg2id]
  have hupre : UpPre c2 c.seq.length (c.seq.length + 1) := by
    constructor
    · intro pos hpos hpos0 hpl
      have hplt : pos < c.seq.length := by omega
      rw [hprio2 pos hplt, hprio2 ((pos - 1) / 2) (by omega)]
      exact hheap pos hplt hpos0
    · intro _ pos hpos hpar
      exfalso
      omega
  have hfin : heapPushW c w = (id, hup c2 (c2.seq.length - 1)) := rfl
  have hlast : c2.seq.length - 1 = c.seq.length := by omega
  have hlt2 : c.seq.length < c2.seq.length := by omega
  have hupperm := hup_permEq c2 c.seq.length hlt2
  have hupwf := hup_wf c2 c.seq.length hlt2 hs2 hidx2
  have huph : HeapUpTo (hup c2 c.seq.length) (c.seq.length + 1) :=
    hup_edges (c.seq.length + 1) c2 c.seq.length (by omega) (by omega) hupre
  rw [hfin, hlast]
  refine ⟨rfl, hupwf.1, hupwf.2, ?_, ?_, ?_, ?_, ?_, ?_, ?_, ?_⟩
  · intro pos hpos hpos0
    apply huph pos _ hpos0
    rw [hupperm.2.2.2.1.length_eq, hlen2] at hpos
    exact hpos
  · rw [hupperm.1]
    rfl
  · rw [hupperm.2.1]
    rfl
  · rw [hupperm.2.2.1, harena2]
  · rw [hupperm.2.2.2.1.length_eq, hlen2]
  · refine hupperm.2.2.2.1.trans ?_
    rw [hseq2]
    exact List.perm_append_singleton id c.seq
  · rw [hupperm.2.2.2.2 id, hg2id]
    rfl
  · intro x hx
    rw [hupperm.2.2.2.2 x]
    have := hg2 x hx
    rw [this]

/-! Floyd heap construction (`heap.Init`). -/

theorem heapInitGo_permEq (n : Nat) : ∀ (k : Nat) (c : Cache κ ν),
    n ≤ c.seq.length → PermEq (heapInitGo n c k) c := by
  intro k
  induction k with
  | zero => intro c _; exact permEq_refl c
  | succ k ih =>
      intro c hn
      show PermEq (heapInitGo n (hdownGo c k n).1 k) c
      have hperm := hdownGo_permEq c k n hn
      exact permEq_trans (ih _ (by rw [hperm.2.2.2.1.length_eq]; exact hn)) hperm

theorem heapInitGo_wf (n : Nat) : ∀ (k : Nat) (c : Cache κ ν),
    n ≤ c.seq.length → SeqOK c → IdxOK c →
    SeqOK (heapInitGo n c k) ∧ IdxOK (heapInitGo n c k) := by
  intro k
  induction k with
  | zero => intro c _ hs hidx; exact ⟨hs, hidx⟩
  | succ k ih =>
      intro c hn hs hidx
      show SeqOK (heapInitGo n (hdownGo c k n).1 k) ∧ _
      have hperm := hdownGo_permEq c k n hn
      have hwf := hdownGo_wf c k n hn hs hidx
      exact ih _ (by rw [hperm.2.2.2.1.length_eq]; exact hn) hwf.1 hwf.2

theorem heapInitGo_edges (n : Nat) : ∀ (k : Nat) (c : Cache κ ν),
    n ≤ c.seq.length → EdgesFrom c k n → EdgesFrom (heapInitGo n c k) 0 n := by
  intro k
  induction k with
  | zero => intro c _ h; exact h
  | succ k ih =>
      intro c hn h
      show EdgesFrom (heapInitGo n (hdownGo c k n).1 k) 0 n
      have hperm := hdownGo_permEq c k n hn
      apply ih _ (by rw [hperm.2.2.2.1.length_eq]; exact hn)
      apply hdownGo_edges k c k n hn (le_refl k)
      constructor
      · intro pos hpos hpos0 hkp hpk
        exact h pos hpos hpos0 (by omega)
      · intro hk0 hkk
        exfalso
        have : (k - 1) / 2 < k := by omega
        omega
  
/-- Specification of `heap.Init`: a permutation of the same state whose heap
order holds everywhere. -/
theorem heapInit_spec {c : Cache κ ν} (hs : SeqOK c) (hidx : IdxOK c) :
    PermEq (heapInit c) c ∧ SeqOK (heapInit c) ∧ IdxOK (heapInit c) ∧
      HeapOK (heapInit c) := by
  have hperm := heapInitGo_permEq c.seq.length (c.seq.length / 2) c (le_refl _)
  have hwf := heapInitGo_wf c.seq.length (c.seq.length / 2) c (le_refl _) hs hidx
  have hedges := heapInitGo_edges c.seq.length (c.seq.length / 2) c (le_refl _)
    (by
      intro pos hpos hpos0 hkp
      exfalso
      omega)
  refine ⟨hperm, hwf.1, hwf.2, ?_⟩
  intro pos hpos hpos0
  apply edgesFrom_zero.1 hedges pos _ hpos0
  have hleq : (heapInit c).seq.length = c.seq.length := hperm.2.2.2.1.length_eq
  rw [hleq] at hpos
  exact hpos

/-! Cache-level lemmas: the map/heap bijection and eviction. -/

theorem mapOK_snd_nodup {c : Cache κ ν} (hm : MapOK c) :
    (c.items.map Prod.snd).Nodup := by
  apply List.Nodup.map_on _ (List.Nodup.of_map Prod.fst hm.1)
  intro p hp q hq hpq
  have hkp := (hm.2.1 p hp).2
  have hkq := (hm.2.1 q hq).2
  have hkey : p.1 = q.1 := by
    rw [← hkp, ← hkq, hpq]
  have hnd := hm.1
  rcases List.getElem_of_mem hp with ⟨np, hnl, hnp⟩
  rcases List.getElem_of_mem hq with ⟨nq, hql, hnq⟩
  have hfst : (c.items.map Prod.fst).get ⟨np, by simpa using hnl⟩
      = (c.items.map Prod.fst).get ⟨nq, by simpa using hql⟩ := by
    simp only [List.get_eq_getElem, List.getElem_map]
    rw [hnp, hnq]
    exact hkey
  have hnpq : np = nq := by
    have := (List.nodup_iff_injective_get.1 hnd) hfst
    simpa using this
  rw [← hnp, ← hnq]
  subst hnpq
  rfl

theorem mapOK_length {c : Cache κ ν} (hs : SeqOK c) (hm : MapOK c) :
    c.items.length = c.seq.length := by
  have h1 : (c.items.map Prod.snd).Subperm c.seq := by
    apply List.subperm_of_subset (mapOK_snd_nodup hm)
    intro x hx
    obtain ⟨p, hp, hpx⟩ := List.mem_map.1 hx
    exact hpx ▸ (hm.2.1 p hp).1
  have h2 : c.seq.Subperm (c.items.map Prod.snd) := by
    apply List.subperm_of_subset hs.2
    intro id hid
    exact List.mem_map.2 ⟨((getW c id).key, id), hm.2.2 id hid, rfl⟩
  have := h1.length_le
  have := h2.length_le
  simp only [List.length_map] at *
  omega

theorem root_min_ids {c : Cache κ ν} (hheap : HeapOK c) :
    ∀ id ∈ c.seq, prioAt c 0 ≤ (getW c id).prio := by
  intro id hid
  obtain ⟨pos, hpos, hgp⟩ := List.getElem_of_mem hid
  have : prioAt c pos = (getW c id).prio := by
    unfold prioAt wAt
    rw [widAt_eq_getElem c hpos, hgp]
  rw [← this]
  exact heapUpTo_root_min hheap pos hpos

theorem cEvictGo_eq (c : Cache κ ν) (count : Int) :
    cEvictGo c count = if count > 0 then
      (match heapPop c with
       | none => ([], c)
       | some (w, c1) =>
           let c2 := { c1 with items := merase c1.items w.key }
           let r := cEvictGo c2 (count - 1)
           (w :: r.1, r.2))
    else ([], c) := by
  rw [cEvictGo]
  rfl

theorem hPopRaw_none_iff {c : Cache κ ν} : hPopRaw c = none ↔ c.seq = [] := by
  constructor
  · intro h
    rcases hgl : c.seq.getLast? with _ | id
    · exact List.getLast?_eq_none_iff.1 hgl
    · unfold hPopRaw at h
      rw [hgl] at h
      exact Option.noConfusion h
  · intro h
    unfold hPopRaw
    rw [show c.seq.getLast? = none from List.getLast?_eq_none_iff.2 h]

theorem heapPop_none_iff {c : Cache κ ν} : heapPop c = none ↔ c.seq = [] := by
  constructor
  · intro h
    by_contra hne
    have hlen : 0 < c.seq.length := List.length_pos.2 hne
    unfold heapPop at h
    rw [if_neg (show ¬ c.seq.isEmpty = true by simpa [List.isEmpty_iff] using hne)] at h
    have hlen1 : (hswap c 0 (c.seq.length - 1)).seq.length = c.seq.length :=
      hswap_seq_length _ _ _
    have hperm2 := hdownGo_permEq (hswap c 0 (c.seq.length - 1)) 0 (c.seq.length - 1)
      (by rw [hlen1]; omega)
    have hlen2 : ((hdownGo (hswap c 0 (c.seq.length - 1)) 0
        (c.seq.length - 1)).1).seq.length = c.seq.length := by
      rw [hperm2.2.2.2.1.length_eq, hlen1]
    rcases hpr : hPopRaw ((hdownGo (hswap c 0 (c.seq.length - 1)) 0
        (c.seq.length - 1)).1) with _ | p
    · have := hPopRaw_none_iff.1 hpr
      rw [this] at hlen2
      simp at hlen2
      omega
    · simp only [hpr] at h
      exact Option.noConfusion h
  · intro h
    unfold heapPop
    rw [if_pos (by simp [h])]

/-- Specification of the guarded internal `evict`: it pops
`min(count, size)` wrappers, root-first; every popped wrapper sorts no later
than everything left; pops arrive in nondecreasing priority order; the map
loses exactly the popped keys; all invariants are preserved. -/
theorem cEvictGo_spec : ∀ (c : Cache κ ν) (count : Int), SeqOK c → IdxOK c →
    MapOK c → HeapOK c →
    SeqOK (cEvictGo c count).2 ∧ IdxOK (cEvictGo c count).2 ∧
    MapOK (cEvictGo c count).2 ∧ HeapOK (cEvictGo c count).2 ∧
    (cEvictGo c count).2.capacity = c.capacity ∧
    (cEvictGo c count).2.arena.length = c.arena.length ∧
    (cEvictGo c count).1.length = min count.toNat c.seq.length ∧
    (cEvictGo c count).2.seq.length = c.seq.length - (cEvictGo c count).1.length ∧
    (cEvictGo c count).2.items.length = c.items.length - (cEvictGo c count).1.length ∧
    (∀ id ∈ (cEvictGo c count).2.seq, id ∈ c.seq) ∧
    (∀ x, pay (getW (cEvictGo c count).2 x) = pay (getW c x)) ∧
    (∀ w ∈ (cEvictGo c count).1, ∃ id ∈ c.seq, pay w = pay (getW c id)) ∧
    (∀ w ∈ (cEvictGo c count).1, ∀ id ∈ (cEvictGo c count).2.seq,
      w.prio ≤ (getW (cEvictGo c count).2 id).prio) ∧
    List.Pairwise (fun a b => a.prio ≤ b.prio) (cEvictGo c count).1 ∧
    (∀ p ∈ (cEvictGo c count).2.items, p ∈ c.items) := by
  intro c count
  induction c, count using cEvictGo.induct with
  | case1 c count hc heq =>
      intro hs hidx hm hheap
      have hseqe : c.seq = [] := heapPop_none_iff.1 heq
      have hres : cEvictGo c count = ([], c) := by
        rw [cEvictGo_eq, if_pos hc, heq]
      rw [hres]
      refine ⟨hs, hidx, hm, hheap, rfl, rfl, ?_, ?_, ?_, ?_, ?_, ?_, ?_, ?_⟩
      · simp [hseqe]
      · simp
      · simp
      · intro id hid
        exact hid
      · intro x
        rfl
      · intro w hw
        exact absurd hw (List.not_mem_nil w)
      · intro w hw
        exact absurd hw (List.not_mem_nil w)
      · exact ⟨List.Pairwise.nil, fun p hp => hp⟩
  | case2 c count hc w c1 heq c2l ih =>
      intro hs hidx hm hheap
      have hne : c.seq ≠ [] := by
        intro he
        rw [heapPop_none_iff.2 he] at heq
        exact Option.noConfusion heq
      have hlen0 : 0 < c.seq.length := List.length_pos.2 hne
      obtain ⟨w', c1', hpop, hpayw, hs1, hidx1, hheap1, hcap1, hitems1, harena1,
        hlen1, hnotin1, hperm1, hpays1⟩ := heapPop_spec hne hs hidx hheap
      rw [hpop] at heq
      have hw1 : w' = w := (Prod.ext_iff.1 (Option.some.inj heq)).1
      have hw2 : c1' = c1 := (Prod.ext_iff.1 (Option.some.inj heq)).2
      subst hw1
      subst hw2
      have hkey0 : w'.key = (getW c (widAt c 0)).key :=
        congrArg (fun t => t.1) hpayw
      have hprio0 : w'.prio = prioAt c 0 :=
        congrArg (fun t => t.2.2) hpayw
      have hmem0 : widAt c 0 ∈ c.seq := widAt_mem c hlen0
      have hbind0 : ((getW c (widAt c 0)).key, widAt c 0) ∈ c.items :=
        hm.2.2 _ hmem0
      have hs2 : SeqOK c2l := hs1
      have hidx2 : IdxOK c2l := hidx1
      have hheap2 : HeapOK c2l := hheap1
      have hseq2 : c2l.seq = c1'.seq := rfl
      have hg2 : ∀ x, getW c2l x = getW c1' x := fun _ => rfl
      have hm2 : MapOK c2l := by
        refine ⟨?_, ?_, ?_⟩
        · show ((merase c1'.items w'.key).map Prod.fst).Nodup
          rw [hitems1]
          exact merase_keys_nodup hm.1
        · intro p hp
          have hp' := merase_subset hp
          rw [hitems1] at hp'
          obtain ⟨hpm, hpk⟩ := hp'
          obtain ⟨hpseq, hpkey⟩ := hm.2.1 p hpm
          have hpne : p.2 ≠ widAt c 0 := by
            intro he
            apply hpk
            rw [← hpkey, he, ← hkey0]
          refine ⟨?_, ?_⟩
          · show p.2 ∈ c1'.seq
            rw [hperm1.mem_iff]
            exact (List.mem_erase_of_ne hpne).2 hpseq
          · show (getW c1' p.2).key = p.1
            rw [show (getW c1' p.2).key = (getW c p.2).key from
              congrArg (fun t => t.1) (hpays1 p.2)]
            exact hpkey
        · intro id hid
          have hid1 : id ∈ c1'.seq := hid
          have hid' : id ∈ c.seq :=
            List.mem_of_mem_erase (hperm1.mem_iff.1 hid1)
          have hidne : id ≠ widAt c 0 := by
            intro he
            exact hnotin1 (he ▸ hid1)
          have hkeyid : (getW c2l id).key = (getW c id).key :=
            congrArg (fun t => t.1) (hpays1 id)
          show ((getW c2l id).key, id) ∈ merase c1'.items w'.key
          rw [hkeyid, hitems1]
          apply mem_merase (hm.2.2 id hid')
          intro he
          have he' : (getW c id).key = w'.key := he
          rw [hkey0] at he'
          have h1 := mem_mlookup hm.1 (hm.2.2 id hid')
          have h2 := mem_mlookup hm.1 hbind0
          rw [he'] at h1
          rw [h1] at h2
          exact hidne (Option.some.inj h2)
      have hspec := ih hs2 hidx2 hm2 hheap2
      obtain ⟨ihs, ihidx, ihm, ihheap, ihcap, iharena, ihcnt, ihseqlen, ihitemslen,
        ihsub, ihpays, ihex, ihmin, ihsort, ihisub⟩ := hspec
      have hres : cEvictGo c count =
          (w' :: (cEvictGo c2l (count - 1)).1, (cEvictGo c2l (count - 1)).2) := by
        rw [cEvictGo_eq, if_pos hc, hpop]
      rw [hres]
      have hitems2len : c2l.items.length + 1 = c.items.length := by
        show (merase c1'.items w'.key).length + 1 = c.items.length
        rw [hitems1, hkey0]
        exact merase_length_present hm.1 hbind0
      have hsub2 : ∀ id ∈ c2l.seq, id ∈ c.seq := fun id hid =>
        List.mem_of_mem_erase (hperm1.mem_iff.1 hid)
      have hpays2 : ∀ x, pay (getW c2l x) = pay (getW c x) := hpays1
      refine ⟨ihs, ihidx, ihm, ihheap, ?_, ?_, ?_, ?_, ?_, ?_, ?_, ?_, ?_, ?_⟩
      · rw [ihcap]
        exact hcap1
      · rw [iharena]
        exact harena1
      · simp only [List.length_cons, ihcnt]
        have h2len : c1'.seq.length = c.seq.length - 1 := hlen1
        omega
      · simp only [List.length_cons, ihseqlen, ihcnt]
        have h2len : c1'.seq.length = c.seq.length - 1 := hlen1
        omega
      · simp only [List.length_cons, ihitemslen, ihcnt]
        have h2len : c1'.seq.length = c.seq.length - 1 := hlen1
        have hmlen : (merase c1'.items w'.key).length = c1'.seq.length :=
          mapOK_length hs2 hm2
        have hmlen0 : c.items.length = c.seq.length := mapOK_length hs hm
        have hit : (merase c1'.items w'.key).length + 1 = c.items.length :=
          hitems2len
        omega
      · intro id hid
        exact hsub2 id (ihsub id hid)
      · intro x
        rw [ihpays x, hpays2 x]
      · intro v hv
        rcases List.mem_cons.1 hv with hv1 | hv1
        · exact ⟨widAt c 0, hmem0, hv1 ▸ hpayw⟩
        · obtain ⟨id, hidm, hidp⟩ := ihex v hv1
          exact ⟨id, hsub2 id hidm, hidp.trans (hpays2 id)⟩
      · intro v hv id hid
        rcases List.mem_cons.1 hv with hv1 | hv1
        · have hidc : id ∈ c.seq := hsub2 id (ihsub id hid)
          have hgid : (getW (cEvictGo c2l (count - 1)).2 id).prio
              = (getW c id).prio := by
            have := (ihpays id).trans (hpays2 id)
            exact congrArg (fun t => t.2.2) this
          rw [hv1, hprio0, hgid]
          exact root_min_ids hheap id hidc
        · exact ihmin v hv1 id hid
      · refine ⟨List.Pairwise.cons ?_ ihsort, ?_⟩
        · intro v hv
          obtain ⟨id, hidm, hidp⟩ := ihex v hv
          have hvprio : v.prio = (getW c id).prio := by
            have := hidp.trans (hpays2 id)
            exact congrArg (fun t => t.2.2) this
          rw [hprio0, hvprio]
          exact root_min_ids hheap id (hsub2 id hidm)
        · intro p hp
          have hp2 : p ∈ c2l.items := ihisub p hp
          have hp3 := (merase_subset hp2).1
          rw [hitems1] at hp3
          exact hp3
  | case3 c count hc =>
      intro hs hidx hm hheap
      have hres : cEvictGo c count = ([], c) := by
        rw [cEvictGo_eq, if_neg hc]
      rw [hres]
      refine ⟨hs, hidx, hm, hheap, rfl, rfl, ?_, ?_, ?_, ?_, ?_, ?_, ?_, ?_⟩
      · simp
        omega
      · simp
      · simp
      · intro id hid
        exact hid
      · intro x
        rfl
      · intro v hv
        exact absurd hv (List.not_mem_nil v)
      · intro v hv
        exact absurd hv (List.not_mem_nil v)
      · refine ⟨List.Pairwise.nil, ?_⟩
        intro p hp
        exact hp

/-- Re-establishing the map/heap agreement after one wrapper left the heap and
its key was deleted from the map. -/
theorem mapOK_after_removal {c cr : Cache κ ν} {id : Nat} (hm : MapOK c)
    (hmem : id ∈ c.seq)
    (hitems : cr.items = merase c.items (getW c id).key)
    (hperm : cr.seq.Perm (c.seq.erase id))
    (hnotin : id ∉ cr.seq)
    (hpays : ∀ x, pay (getW cr x) = pay (getW c x)) :
    MapOK cr := by
  have hbind : ((getW c id).key, id) ∈ c.items := hm.2.2 id hmem
  refine ⟨?_, ?_, ?_⟩
  · rw [hitems]
    exact merase_keys_nodup hm.1
  · intro q hq
    rw [hitems] at hq
    have hq' := merase_subset hq
    obtain ⟨hqm, hqk⟩ := hq'
    obtain ⟨hqseq, hqkey⟩ := hm.2.1 q hqm
    have hqne : q.2 ≠ id := by
      intro he
      apply hqk
      rw [← hqkey, he]
    refine ⟨?_, ?_⟩
    · rw [hperm.mem_iff]
      exact (List.mem_erase_of_ne hqne).2 hqseq
    · rw [show (getW cr q.2).key = (getW c q.2).key from
        congrArg (fun t => t.1) (hpays q.2)]
      exact hqkey
  · intro x hx
    have hx' : x ∈ c.seq := List.mem_of_mem_erase (hperm.mem_iff.1 hx)
    have hxne : x ≠ id := fun he => hnotin (he ▸ hx)
    rw [show (getW cr x).key = (getW c x).key from
      congrArg (fun t => t.1) (hpays x), hitems]
    apply mem_merase (hm.2.2 x hx')
    intro he
    have he' : (getW c x).key = (getW c id).key := he
    have h1 := mem_mlookup hm.1 (hm.2.2 x hx')
    have h2 := mem_mlookup hm.1 hbind
    rw [he'] at h1
    rw [h1] at h2
    exact hxne (Option.some.inj h2)

/-- Core of both `Remove` variants on a present key: delete the map binding,
`heap.Remove` at the wrapper's stored index. -/
theorem remove_core_spec {c : Cache κ ν} {k : κ} {id : Nat}
    (hinv : Inv c) (hlk : mlookup c.items k = some id) :
    ∃ r, heapRemove { c with items := merase c.items k }
        (getW { c with items := merase c.items k } id).index = some r ∧
      Inv r.2 ∧ mlookup r.2.items k = none ∧
      r.2.capacity = c.capacity ∧
      r.2.items.length + 1 = c.items.length ∧
      (∀ k', k' ≠ k → mlookup r.2.items k' = mlookup c.items k') := by
  obtain ⟨⟨hs, hidx, hm⟩, hheap, hcap0, hlencap⟩ := hinv
  have hbindk : (k, id) ∈ c.items := mlookup_mem hlk
  have hkeyid : (getW c id).key = k := (hm.2.1 _ hbindk).2
  have hmem : id ∈ c.seq := (hm.2.1 _ hbindk).1
  obtain ⟨t, ht, hgt⟩ := List.getElem_of_mem hmem
  have hwid : widAt c t = id := by
    rw [widAt_eq_getElem c ht, hgt]
  have hidxt : (getW c id).index = (t : Int) := by
    have := hidx t ht
    unfold wAt at this
    rw [hwid] at this
    exact this
  set c1 : Cache κ ν := { c with items := merase c.items k } with hc1
  have hs1 : SeqOK c1 := hs
  have hidx1 : IdxOK c1 := hidx
  have hheap1 : HeapOK c1 := hheap
  have ht1 : t < c1.seq.length := ht
  obtain ⟨id', c2, hrem, hid', hs2, hidx2, hheap2, hcap2, hitems2, harena2,
    hlen2, hnotin2, hperm2, hpays2⟩ := heapRemove_spec ht1 hs1 hidx1 hheap1
  have hwid1 : widAt c1 t = id := hwid
  have hid'2 : id' = id := by
    rw [hid', hwid1]
  refine ⟨(id', c2), ?_, ?_, ?_, ?_, ?_, ?_⟩
  · have hidxt' : (getW { c with items := merase c.items k } id).index = (t : Int) := hidxt
    rw [hidxt']
    exact hrem
  · -- Inv c2
    show Inv c2
    have hm2 : MapOK c2 := by
      apply mapOK_after_removal hm hmem
      · rw [hitems2, hkeyid]
      · rw [hwid1] at hperm2
        exact hperm2
      · rw [hwid1] at hnotin2
        exact hnotin2
      · exact hpays2
    have hlen2' : c2.items.length + 1 = c.items.length := by
      have : c2.items = merase c.items k := hitems2
      rw [this, ← hkeyid]
      rw [hkeyid]
      exact merase_length_present hm.1 hbindk
    refine ⟨⟨hs2, hidx2, hm2⟩, hheap2, ?_, ?_⟩
    · rw [hcap2]
      exact hcap0
    · have hcap2' : c2.capacity = c.capacity := hcap2
      rw [hcap2']
      omega
  · rw [hitems2]
    exact mlookup_merase_self
  · exact hcap2
  · rw [hitems2]
    show (merase c.items k).length + 1 = c.items.length
    exact merase_length_present hm.1 hbindk
  · intro k' hk'
    rw [hitems2]
    exact mlookup_merase hk'

/-- Remove of `part_001` on a present key: reports success and deletes it;
calling it again reports failure on the unchanged state. -/
theorem cRemove1_spec_present {c : Cache κ ν} {k : κ} {id : Nat}
    (hinv : Inv c) (hlk : mlookup c.items k = some id) :
    ∃ c', cRemove1 c k = some (true, c') ∧ Inv c' ∧
      mlookup c'.items k = none ∧
      c'.items.length + 1 = c.items.length ∧
      c'.capacity = c.capacity ∧
      cRemove1 c' k = some (false, c') := by
  obtain ⟨r, hrem, hinv', hnone, hcap', hlen', _⟩ := remove_core_spec hinv hlk
  have hres : cRemove1 c k = some (true, r.2) := by
    unfold cRemove1
    rw [hlk]
    show (match heapRemove { c with items := merase c.items k }
        (getW { c with items := merase c.items k } id).index with
      | none => none
      | some r => some (true, r.2)) = some (true, r.2)
    rw [hrem]
  refine ⟨r.2, hres, hinv', hnone, ?_, hcap', ?_⟩
  · omega
  · unfold cRemove1
    rw [hnone]

/-- Remove of `part_000` with a single present key: removal count one. -/
theorem cRemove_single_spec {c : Cache κ ν} {k : κ} {id : Nat}
    (hinv : Inv c) (hlk : mlookup c.items k = some id) :
    ∃ c', cRemove c [k] = some (1, c') ∧ Inv c' ∧
      mlookup c'.items k = none ∧
      c'.items.length + 1 = c.items.length ∧
      c'.capacity = c.capacity ∧
      cRemove c' [k] = some (0, c') := by
  obtain ⟨r, hrem, hinv', hnone, hcap', hlen', _⟩ := remove_core_spec hinv hlk
  have hres : cRemove c [k] = some (0 + 1, r.2) := by
    unfold cRemove cRemoveGo
    rw [hlk]
    show (match heapRemove { c with items := merase c.items k }
        (getW { c with items := merase c.items k } id).index with
      | none => none
      | some r => cRemoveGo r.2 (0 + 1) []) = some (0 + 1, r.2)
    rw [hrem]
    rfl
  refine ⟨r.2, by simpa using hres, hinv', hnone, ?_, hcap', ?_⟩
  · omega
  · unfold cRemove cRemoveGo
    rw [hnone]
    rfl

/-- Structural invariants transfer between states with the same heap sequence,
map, and arena layout whose wrappers agree on key, priority and index. -/
theorem wf_transfer {c' c : Cache κ ν}
    (hseq : c'.seq = c.seq) (hitems : c'.items = c.items)
    (hlen : c'.arena.length = c.arena.length)
    (hkey : ∀ x, (getW c' x).key = (getW c x).key)
    (hprio : ∀ x, (getW c' x).prio = (getW c x).prio)
    (hidxp : ∀ x, (getW c' x).index = (getW c x).index) :
    (SeqOK c → SeqOK c') ∧ (IdxOK c → IdxOK c') ∧ (MapOK c → MapOK c') ∧
    (HeapOK c → HeapOK c') := by
  have hwid : ∀ pos, widAt c' pos = widAt c pos := by
    intro pos
    unfold widAt
    rw [hseq]
  refine ⟨?_, ?_, ?_, ?_⟩
  · intro hs
    constructor
    · intro id hid
      rw [hlen]
      exact hs.1 id (hseq ▸ hid)
    · rw [hseq]
      exact hs.2
  · intro hidx
    intro pos hpos
    rw [hseq] at hpos
    unfold wAt
    rw [hwid, hidxp]
    exact hidx pos hpos
  · intro hm
    refine ⟨hitems ▸ hm.1, ?_, ?_⟩
    · intro q hq
      rw [hitems] at hq
      obtain ⟨h1, h2⟩ := hm.2.1 q hq
      exact ⟨hseq ▸ h1, (hkey q.2).trans h2⟩
    · intro id hid
      rw [hitems, hkey]
      exact hm.2.2 id (hseq ▸ hid)
  · intro hh
    intro pos hpos hpos0
    rw [hseq] at hpos
    show prioAt c' _ ≤ prioAt c' _
    unfold prioAt wAt
    rw [hwid, hwid, hprio, hprio]
    exact hh pos hpos hpos0

/-- Zero capacity short-circuits `addItem` of `part_001`. -/
theorem addItemB_capzero {c : Cache κ ν} (k : κ) (v : ν) (p : Int)
    (hcap : c.capacity = 0) : addItemB c k v p = some c := by
  unfold addItemB
  rw [if_pos hcap]

/-- Zero capacity short-circuits `addItem` of `part_000`. -/
theorem addItemA_capzero {c : Cache κ ν} (k : κ) (v : ν) (p : Int)
    (hcap : c.capacity = 0) : addItemA c k v p = some c := by
  unfold addItemA
  rw [if_pos hcap]

/-- `addItem` of `part_001` on an existing key with unchanged priority: only
the stored value is overwritten, the heap is not touched. -/
theorem addItemB_update_samePrio {c : Cache κ ν} {k : κ} {id : Nat}
    (v : ν) {p : Int}
    (hcap : c.capacity ≠ 0) (hlk : mlookup c.items k = some id)
    (hpeq : (getW c id).prio = p) :
    addItemB c k v p = some (setW c id { getW c id with value := v }) := by
  unfold addItemB
  rw [if_neg hcap, hlk]
  show (if (getW c id).prio ≠ p then _ else
    some (setW c id { getW c id with value := v })) = _
  rw [if_neg (fun h => h hpeq)]

/-- The state after a value-only overwrite: same skeleton, and the stored
value under the key is the new one. -/
theorem setW_value_facts {c : Cache κ ν} {k : κ} {id : Nat} (v : ν)
    (hs : SeqOK c) (hm : MapOK c) (hlk : mlookup c.items k = some id) :
    (setW c id { getW c id with value := v }).seq = c.seq ∧
    (setW c id { getW c id with value := v }).items = c.items ∧
    (setW c id { getW c id with value := v }).capacity = c.capacity ∧
    (setW c id { getW c id with value := v }).arena.length = c.arena.length ∧
    (∀ x, (getW (setW c id { getW c id with value := v }) x).key = (getW c x).key) ∧
    (∀ x, (getW (setW c id { getW c id with value := v }) x).prio = (getW c x).prio) ∧
    (∀ x, (getW (setW c id { getW c id with value := v }) x).index = (getW c x).index) ∧
    cGet (setW c id { getW c id with value := v }) k = some v := by
  have hmem : id ∈ c.seq := (hm.2.1 _ (mlookup_mem hlk)).1
  have hid : id < c.arena.length := hs.1 id hmem
  have hproj : ∀ x,
      (getW (setW c id { getW c id with value := v }) x).key = (getW c x).key ∧
      (getW (setW c id { getW c id with value := v }) x).prio = (getW c x).prio ∧
      (getW (setW c id { getW c id with value := v }) x).index = (getW c x).index := by
    intro x
    rw [getW_setW]
    by_cases h : id = x ∧ id < c.arena.length
    · rw [if_pos h, ← h.1]
      exact ⟨rfl, rfl, rfl⟩
    · rw [if_neg h]
      exact ⟨rfl, rfl, rfl⟩
  refine ⟨rfl, rfl, rfl, by simp [setW], fun x => (hproj x).1, fun x => (hproj x).2.1,
    fun x => (hproj x).2.2, ?_⟩
  unfold cGet
  have hlk' : mlookup (setW c id { getW c id with value := v }).items k = some id := hlk
  rw [hlk']
  show some (getW (setW c id { getW c id with value := v }) id).value = some v
  rw [getW_setW, if_pos ⟨rfl, hid⟩]

/-- Structural invariants other than the heap order transfer when only
priorities changed. -/
theorem wf_transfer3 {c' c : Cache κ ν}
    (hseq : c'.seq = c.seq) (hitems : c'.items = c.items)
    (hlen : c'.arena.length = c.arena.length)
    (hkey : ∀ x, (getW c' x).key = (getW c x).key)
    (hidxp : ∀ x, (getW c' x).index = (getW c x).index) :
    (SeqOK c → SeqOK c') ∧ (IdxOK c → IdxOK c') ∧ (MapOK c → MapOK c') := by
  have hwid : ∀ pos, widAt c' pos = widAt c pos := by
    intro pos
    unfold widAt
    rw [hseq]
  refine ⟨?_, ?_, ?_⟩
  · intro hs
    constructor
    · intro id hid
      rw [hlen]
      exact hs.1 id (hseq ▸ hid)
    · rw [hseq]
      exact hs.2
  · intro hidx
    intro pos hpos
    rw [hseq] at hpos
    unfold wAt
    rw [hwid, hidxp]
    exact hidx pos hpos
  · intro hm
    refine ⟨hitems ▸ hm.1, ?_, ?_⟩
    · intro q hq
      rw [hitems] at hq
      obtain ⟨h1, h2⟩ := hm.2.1 q hq
      exact ⟨hseq ▸ h1, (hkey q.2).trans h2⟩
    · intro id hid
      rw [hitems, hkey]
      exact hm.2.2 id (hseq ▸ hid)

/-- `addItem` of `part_001` on an existing key with a changed priority:
overwrite payload in place and run `heap.Fix` at the wrapper's stored index.
The call returns normally, the full invariant is restored, and the new value
is retrievable. -/
theorem addItemB_update_diffPrio {c : Cache κ ν} {k : κ} {id : Nat}
    (v : ν) {p : Int} (hinv : Inv c)
    (hcap : c.capacity ≠ 0) (hlk : mlookup c.items k = some id)
    (hpne : (getW c id).prio ≠ p) :
    ∃ c', addItemB c k v p = some c' ∧ Inv c' ∧ cGet c' k = some v ∧
      c'.items = c.items ∧ c'.capacity = c.capacity := by
  obtain ⟨⟨hs, hidx, hm⟩, hheap, hcap0, hlencap⟩ := hinv
  have hmem : id ∈ c.seq := (hm.2.1 _ (mlookup_mem hlk)).1
  have hid : id < c.arena.length := hs.1 id hmem
  obtain ⟨t, ht, hgt⟩ := List.getElem_of_mem hmem
  have hwid : widAt c t = id := by
    rw [widAt_eq_getElem c ht, hgt]
  have hidxt : (getW c id).index = (t : Int) := by
    have := hidx t ht
    unfold wAt at this
    rw [hwid] at this
    exact this
  set c1 := setW c id { getW c id with value := v } with hc1
  set c2 := setW c1 id { getW c1 id with prio := p } with hc2
  have hlen1 : c1.arena.length = c.arena.length := by
    simp [hc1, setW]
  have hg2 : ∀ x, getW c2 x =
      if id = x then { getW c id with value := v, prio := p } else getW c x := by
    intro x
    rw [hc2, getW_setW, hc1, getW_setW, getW_setW]
    by_cases hx : id = x
    · subst hx
      rw [if_pos ⟨rfl, by rw [hlen1]; exact hid⟩, if_pos ⟨rfl, hid⟩, if_pos rfl]
    · rw [if_neg (fun h => hx h.1), if_neg (fun h => hx h.1), if_neg hx]
  have hseq2 : c2.seq = c.seq := rfl
  have hitems2 : c2.items = c.items := rfl
  have hcap2 : c2.capacity = c.capacity := rfl
  have hlen2 : c2.arena.length = c.arena.length := by
    simp [hc2, hc1, setW]
  have hkey2 : ∀ x, (getW c2 x).key = (getW c x).key := by
    intro x
    rw [hg2]
    by_cases hx : id = x
    · rw [if_pos hx, ← hx]
    · rw [if_neg hx]
  have hidxp2 : ∀ x, (getW c2 x).index = (getW c x).index := by
    intro x
    rw [hg2]
    by_cases hx : id = x
    · rw [if_pos hx, ← hx]
    · rw [if_neg hx]
  obtain ⟨hsT, hidxT, hmT⟩ := wf_transfer3 hseq2 hitems2 hlen2 hkey2 hidxp2
  have hs2 := hsT hs
  have hidx2 := hidxT hidx
  have hm2 := hmT hm
  have hprioAt2 : ∀ q, q < c.seq.length → q ≠ t → prioAt c2 q = prioAt c q := by
    intro q hq hqt
    have hwq : widAt c2 q = widAt c q := rfl
    have hne : widAt c q ≠ id := by
      intro he
      apply hqt
      have h1 : c.seq[q] = c.seq[t] := by
        rw [hgt, ← widAt_eq_getElem c hq]
        exact he
      exact List.Nodup.getElem_inj_iff hs.2 |>.1 h1
    unfold prioAt wAt
    rw [hwq, hg2, if_neg (fun h => hne h.symm)]
  have hreduce : addItemB c k v p = heapFix c2 (getW c id).index := by
    unfold addItemB
    rw [if_neg hcap, hlk]
    show (if (getW c id).prio ≠ p then heapFix c2 (getW c id).index else _) = _
    rw [if_pos hpne]
  have hlenseq : c2.seq.length = c.seq.length := rfl
  have hfix : heapFix c2 (getW c id).index =
      some (fixCore c2 t c2.seq.length) := by
    unfold heapFix
    rw [hidxt]
    rw [if_neg (by omega : ¬ ((t : Int) < 0))]
    rw [if_neg ?_, Int.toNat_natCast]
    rw [Int.toNat_natCast, hlenseq]
    omega
  have htn : t < c2.seq.length := by
    rw [hlenseq]
    exact ht
  set cF := fixCore c2 t c2.seq.length with hcF
  have hperm : PermEq cF c2 := fixCore_permEq htn le_rfl
  obtain ⟨hsF, hidxF⟩ := fixCore_wf htn le_rfl hs2 hidx2
  have hmF : MapOK cF := mapOK_of_permEq hperm hm2
  have hpre : FixPre c2 t c2.seq.length := by
    constructor
    · intro pos hpos hpos0 hpt hppt
      rw [hlenseq] at hpos
      rw [hprioAt2 pos hpos hpt, hprioAt2 ((pos - 1) / 2) (by omega) hppt]
      exact hheap pos hpos hpos0
    · intro ht0 pos hpos hppar
      rw [hlenseq] at hpos
      have hpt : pos ≠ t := by
        intro he
        rw [he] at hppar
        omega
      have hpos0 : 0 < pos := by
        by_contra h0
        have : pos = 0 := by omega
        rw [this] at hppar
        simp at hppar
        omega
      have hpar_t : (t - 1) / 2 ≠ t := by omega
      rw [hprioAt2 pos hpos hpt, hprioAt2 ((t - 1) / 2) (by omega) hpar_t]
      calc prioAt c ((t - 1) / 2) ≤ prioAt c t := hheap t ht ht0
        _ ≤ prioAt c pos := by
          rw [← hppar]
          exact hheap pos hpos hpos0
  have hheapF : HeapOK cF := by
    rw [heapOK_iff]
    have hlF : cF.seq.length = c2.seq.length := hperm.2.2.2.1.length_eq
    rw [hlF]
    exact fixCore_heap htn le_rfl hpre
  refine ⟨cF, by rw [hreduce, hfix], ⟨⟨hsF, hidxF, hmF⟩, hheapF, ?_, ?_⟩, ?_, ?_, ?_⟩
  · rw [hperm.1, hcap2]
    exact hcap0
  · rw [hperm.2.1, hitems2, hperm.1, hcap2]
    exact hlencap
  · unfold cGet
    have hlkF : mlookup cF.items k = some id := by
      rw [hperm.2.1, hitems2]
      exact hlk
    rw [hlkF]
    show some (getW cF id).value = some v
    have hpay : pay (getW cF id) = pay (getW c2 id) := hperm.2.2.2.2 id
    have hval : (getW cF id).value = (getW c2 id).value :=
      congrArg (fun q => q.2.1) hpay
    rw [hval, hg2, if_pos rfl]
  · rw [hperm.2.1, hitems2]
  · rw [hperm.1, hcap2]

/-- `addItem` (`part_001`, same code in `part_000`) on a new key: evict one
entry if full, push a fresh wrapper, register it in the map.  The call returns
normally, the full invariant holds, the value is retrievable, and when the
cache was not full the entry count grows by one. -/
theorem addItemB_insert_spec {c : Cache κ ν} {k : κ} (v : ν) (p : Int)
    (hinv : Inv c) (hcap : c.capacity ≠ 0) (hnew : mlookup c.items k = none) :
    ∃ c', addItemB c k v p = some c' ∧ Inv c' ∧ cGet c' k = some v ∧
      c'.capacity = c.capacity ∧
      ((c.items.length : Int) < c.capacity →
        c'.items.length = c.items.length + 1) := by
  obtain ⟨⟨hs, hidx, hm⟩, hheap, hcap0, hlencap⟩ := hinv
  have hseqlen : c.items.length = c.seq.length := mapOK_length hs hm
  set c2 := if (c.items.length : Int) ≥ c.capacity then (cEvict c 1).2 else c
    with hc2def
  obtain ⟨hs2, hidx2, hm2, hheap2, hcap2, hnew2, hlen2, hnf2⟩ :
      SeqOK c2 ∧ IdxOK c2 ∧ MapOK c2 ∧ HeapOK c2 ∧ c2.capacity = c.capacity ∧
      mlookup c2.items k = none ∧ (c2.items.length : Int) < c.capacity ∧
      ((c.items.length : Int) < c.capacity → c2.items = c.items) := by
    by_cases hfull : (c.items.length : Int) ≥ c.capacity
    · have hc2 : c2 = (cEvictGo c 1).2 := by
        rw [hc2def, if_pos hfull]
        rfl
      obtain ⟨e1, e2, e3, e4, e5, e6, e7, e8, e9, e10, e11, e12, e13, e14, e15⟩ :=
        cEvictGo_spec c 1 hs hidx hm hheap
      have hpop1 : (cEvictGo c 1).1.length = 1 := by
        rw [e7]
        show min (1 : Int).toNat c.seq.length = 1
        omega
      rw [hc2]
      refine ⟨e1, e2, e3, e4, e5, ?_, ?_, ?_⟩
      · exact mlookup_eq_none_iff.2
          (fun q hq => mlookup_eq_none_iff.1 hnew q (e15 q hq))
      · rw [e9, hpop1]
        omega
      · intro h
        exact absurd h (by omega)
    · have hc2 : c2 = c := by
        rw [hc2def, if_neg hfull]
      rw [hc2]
      exact ⟨hs, hidx, hm, hheap, rfl, hnew, by omega, fun _ => rfl⟩
  obtain ⟨hpid, hps, hpidx, hpheap, hpcap, hpitems, hparena, hpslen, hpperm,
    hppay, hppay2⟩ := heapPushW_spec hs2 hidx2 hheap2 (⟨0, k, v, p⟩ : Wrapper κ ν)
  set r := heapPushW c2 (⟨0, k, v, p⟩ : Wrapper κ ν) with hrdef
  set nid := c2.arena.length with hnid
  set c' : Cache κ ν := { r.2 with items := mput r.2.items k r.1 } with hc'def
  have hr1 : r.1 = nid := hpid
  have hitems' : c'.items = c2.items ++ [(k, nid)] := by
    show mput r.2.items k r.1 = c2.items ++ [(k, nid)]
    rw [hpitems, hr1]
    exact mput_absent hnew2 nid
  have hg' : ∀ x, getW c' x = getW r.2 x := fun _ => rfl
  have hkey_nid : (getW r.2 nid).key = k := congrArg (fun q => q.1) hppay
  have hval_nid : (getW r.2 nid).value = v := congrArg (fun q => q.2.1) hppay
  have hkey_old : ∀ x, x ∈ c2.seq → (getW r.2 x).key = (getW c2 x).key := by
    intro x hx
    have hxlt : x < c2.arena.length := hs2.1 x hx
    exact congrArg (fun q => q.1) (hppay2 x (by omega))
  have hmem_seq : ∀ x, x ∈ r.2.seq ↔ (x = nid ∨ x ∈ c2.seq) := by
    intro x
    rw [hpperm.mem_iff]
    exact List.mem_cons
  have hm' : MapOK c' := by
    refine ⟨?_, ?_, ?_⟩
    · rw [hitems', List.map_append]
      rw [List.nodup_append]
      refine ⟨hm2.1, List.nodup_singleton _, ?_⟩
      intro a ha hb
      simp only [List.map_cons, List.map_nil, List.mem_singleton] at hb
      subst hb
      obtain ⟨q, hq, hq1⟩ := List.mem_map.1 ha
      exact (mlookup_eq_none_iff.1 hnew2 q hq) hq1
    · intro q hq
      rw [hitems'] at hq
      rcases List.mem_append.1 hq with hq2 | hqn
      · obtain ⟨hqseq, hqkey⟩ := hm2.2.1 q hq2
        refine ⟨(hmem_seq q.2).2 (Or.inr hqseq), ?_⟩
        rw [hg', hkey_old q.2 hqseq]
        exact hqkey
      · rw [List.mem_singleton] at hqn
        subst hqn
        refine ⟨(hmem_seq nid).2 (Or.inl rfl), ?_⟩
        rw [hg']
        exact hkey_nid
    · intro x hx
      have hx' : x ∈ r.2.seq := hx
      rcases (hmem_seq x).1 hx' with hxn | hx2
      · subst hxn
        rw [hg', hkey_nid, hitems']
        exact List.mem_append.2 (Or.inr (List.mem_singleton.2 rfl))
      · rw [hg', hkey_old x hx2, hitems']
        exact List.mem_append.2 (Or.inl (hm2.2.2 x hx2))
  have hlen' : c'.items.length = c2.items.length + 1 := by
    rw [hitems']
    simp
  refine ⟨c', ?_, ⟨⟨hps, hpidx, hm'⟩, hpheap, ?_, ?_⟩, ?_, ?_, ?_⟩
  · unfold addItemB
    rw [if_neg hcap, hnew]
  · show 0 ≤ r.2.capacity
    rw [hpcap, hcap2]
    exact hcap0
  · show (c'.items.length : Int) ≤ r.2.capacity
    rw [hlen', hpcap, hcap2]
    omega
  · unfold cGet
    have hlk' : mlookup c'.items k = some nid := by
      show mlookup (mput r.2.items k r.1) k = some nid
      rw [hr1]
      exact mlookup_mput_self
    rw [hlk']
    show some (getW c' nid).value = some v
    rw [hg', hval_nid]
  · show r.2.capacity = c.capacity
    rw [hpcap, hcap2]
  · intro hnf
    rw [hlen', hnf2 hnf]

/-- The public guarded `Evict`: a nonnegative request pops exactly
`min count len` entries, never errors, keeps the invariant, and each popped
wrapper sorts no later than everything left behind. -/
theorem cEvict_spec {c : Cache κ ν} (count : Int) (hinv : Inv c)
    (hcount : 0 ≤ count) :
    (cEvict c count).1 = min count (c.items.length : Int) ∧
    0 ≤ (cEvict c count).1 ∧
    Inv (cEvict c count).2 ∧
    ((cEvict c count).2.items.length : Int) =
      (c.items.length : Int) - (cEvict c count).1 ∧
    (∀ w ∈ (cEvictGo c count).1, ∀ id ∈ (cEvictGo c count).2.seq,
      w.prio ≤ (getW (cEvictGo c count).2 id).prio) ∧
    List.Pairwise (fun a b => a.prio ≤ b.prio) (cEvictGo c count).1 := by
  obtain ⟨⟨hs, hidx, hm⟩, hheap, hcap0, hlencap⟩ := hinv
  have hseqlen : c.items.length = c.seq.length := mapOK_length hs hm
  obtain ⟨e1, e2, e3, e4, e5, e6, e7, e8, e9, e10, e11, e12, e13, e14, e15⟩ :=
    cEvictGo_spec c count hs hidx hm hheap
  have h1 : (cEvict c count).1 = ((cEvictGo c count).1.length : Int) := rfl
  have h2 : (cEvict c count).2 = (cEvictGo c count).2 := rfl
  refine ⟨?_, ?_, ?_, ?_, e13, e14⟩
  · rw [h1, e7]
    omega
  · rw [h1]
    omega
  · rw [h2]
    refine ⟨⟨e1, e2, e3⟩, e4, ?_, ?_⟩
    · rw [e5]
      exact hcap0
    · rw [e5, e9]
      omega
  · rw [h1, h2, e9, e7]
    omega

/-- `setCapacity` with a nonnegative request: at or above the current size it
is a pure bookkeeping change; strictly below, the excess is evicted (each
evicted wrapper sorting no later than everything kept) and the bound stored;
and `ChangeCapacity` is `setCapacity` of the sum. -/
theorem csetCapacity_spec {c : Cache κ ν} {n : Int} (hinv : Inv c)
    (hn : 0 ≤ n) :
    ((c.items.length : Int) ≤ n → csetCapacity c n = { c with capacity := n }) ∧
    (n < (c.items.length : Int) →
      Inv (csetCapacity c n) ∧ (csetCapacity c n).capacity = n ∧
      ((csetCapacity c n).items.length : Int) = n ∧
      (∀ q ∈ (csetCapacity c n).items, q ∈ c.items) ∧
      (∀ w ∈ (cEvictGo c ((c.items.length : Int) - n)).1,
        ∀ id ∈ (csetCapacity c n).seq,
        w.prio ≤ (getW (csetCapacity c n) id).prio)) ∧
    (∀ delta, cChangeCapacity c delta = csetCapacity c (c.capacity + delta)) := by
  obtain ⟨⟨hs, hidx, hm⟩, hheap, hcap0, hlencap⟩ := hinv
  have hseqlen : c.items.length = c.seq.length := mapOK_length hs hm
  have h0 : (if n < 0 then 0 else n) = n := if_neg (not_lt.2 hn)
  refine ⟨?_, ?_, fun _ => rfl⟩
  · intro hle
    by_cases heq : n = c.capacity
    · unfold csetCapacity
      rw [if_pos heq, heq]
    · unfold csetCapacity
      rw [if_neg heq]
      show ({ (if ((c.items.length : Int) - (if n < 0 then 0 else n) > 0)
          then (cEvict c ((c.items.length : Int) - (if n < 0 then 0 else n))).2
          else c) with capacity := (if n < 0 then 0 else n) } : Cache κ ν) =
        { c with capacity := n }
      rw [h0, if_neg (by omega)]
  · intro hlt
    have heq : n ≠ c.capacity := by omega
    have hred : csetCapacity c n =
        { (cEvict c ((c.items.length : Int) - n)).2 with capacity := n } := by
      unfold csetCapacity
      rw [if_neg heq]
      show ({ (if ((c.items.length : Int) - (if n < 0 then 0 else n) > 0)
          then (cEvict c ((c.items.length : Int) - (if n < 0 then 0 else n))).2
          else c) with capacity := (if n < 0 then 0 else n) } : Cache κ ν) = _
      rw [h0, if_pos (by omega)]
    obtain ⟨e1, e2, e3, e4, e5, e6, e7, e8, e9, e10, e11, e12, e13, e14, e15⟩ :=
      cEvictGo_spec c ((c.items.length : Int) - n) hs hidx hm hheap
    have hpoplen : (cEvictGo c ((c.items.length : Int) - n)).1.length =
        c.items.length - n.toNat := by
      rw [e7]
      omega
    have hitemslen : ((csetCapacity c n).items.length : Int) = n := by
      rw [hred]
      show (((cEvictGo c ((c.items.length : Int) - n)).2.items.length : Nat) : Int) = n
      rw [e9, hpoplen]
      omega
    refine ⟨⟨⟨?_, ?_, ?_⟩, ?_, ?_, ?_⟩, ?_, hitemslen, ?_, ?_⟩
    · rw [hred]
      exact e1
    · rw [hred]
      exact e2
    · rw [hred]
      exact e3
    · rw [hred]
      exact e4
    · rw [hred]
      show (0 : Int) ≤ n
      exact hn
    · rw [hitemslen, hred]
    · rw [hred]
    · intro q hq
      rw [hred] at hq
      exact e15 q hq
    · intro w hw id hid
      rw [hred] at hid ⊢
      exact e13 w hw id hid

/-- `setCapacity` with a negative request: the bound is clamped to zero (all
entries are evicted when any were present) and the invariant still holds. -/
theorem csetCapacity_neg {c : Cache κ ν} {n : Int} (hinv : Inv c)
    (hneg : n < 0) :
    (csetCapacity c n).capacity = 0 ∧ Inv (csetCapacity c n) ∧
    (csetCapacity c n).items.length = 0 := by
  obtain ⟨⟨hs, hidx, hm⟩, hheap, hcap0, hlencap⟩ := hinv
  have hseqlen : c.items.length = c.seq.length := mapOK_length hs hm
  have hne : n ≠ c.capacity := by omega
  have h0 : (if n < 0 then 0 else n) = (0 : Int) := if_pos hneg
  by_cases hpos : (c.items.length : Int) - 0 > 0
  · have hred : csetCapacity c n =
        { (cEvict c ((c.items.length : Int) - 0)).2 with capacity := 0 } := by
      unfold csetCapacity
      rw [if_neg hne]
      show ({ (if ((c.items.length : Int) - (if n < 0 then 0 else n) > 0)
          then (cEvict c ((c.items.length : Int) - (if n < 0 then 0 else n))).2
          else c) with capacity := (if n < 0 then 0 else n) } : Cache κ ν) = _
      rw [h0, if_pos hpos]
    obtain ⟨e1, e2, e3, e4, e5, e6, e7, e8, e9, e10, e11, e12, e13, e14, e15⟩ :=
      cEvictGo_spec c ((c.items.length : Int) - 0) hs hidx hm hheap
    have hlen0 : (cEvictGo c ((c.items.length : Int) - 0)).2.items.length = 0 := by
      rw [e9, e7]
      omega
    refine ⟨by rw [hred], ⟨⟨?_, ?_, ?_⟩, ?_, ?_, ?_⟩, ?_⟩
    · rw [hred]
      exact e1
    · rw [hred]
      exact e2
    · rw [hred]
      exact e3
    · rw [hred]
      exact e4
    · rw [hred]
    · rw [hred]
      show (((cEvictGo c ((c.items.length : Int) - 0)).2.items.length : Nat) : Int) ≤ 0
      rw [hlen0]
      omega
    · rw [hred]
      exact hlen0
  · have hred : csetCapacity c n = { c with capacity := 0 } := by
      unfold csetCapacity
      rw [if_neg hne]
      show ({ (if ((c.items.length : Int) - (if n < 0 then 0 else n) > 0)
          then (cEvict c ((c.items.length : Int) - (if n < 0 then 0 else n))).2
          else c) with capacity := (if n < 0 then 0 else n) } : Cache κ ν) = _
      rw [h0, if_neg hpos]
    have hlen0 : c.items.length = 0 := by omega
    refine ⟨by rw [hred], ⟨⟨?_, ?_, ?_⟩, ?_, ?_, ?_⟩, ?_⟩
    · rw [hred]
      exact hs
    · rw [hred]
      exact hidx
    · rw [hred]
      exact hm
    · rw [hred]
      exact hheap
    · rw [hred]
    · rw [hred]
      show ((c.items.length : Nat) : Int) ≤ 0
      omega
    · rw [hred]
      exact hlen0

/-- A fresh cache satisfies the full invariant for every capacity request. -/
theorem cNew_inv (n : Int) : Inv (cNew n : Cache κ ν) := by
  refine ⟨⟨⟨fun id hid => absurd hid (List.not_mem_nil id), List.nodup_nil⟩,
    fun pos hpos => absurd hpos (by simp [cNew]),
    ⟨by simp [cNew], fun q hq => absurd hq (List.not_mem_nil q),
      fun id hid => absurd hid (List.not_mem_nil id)⟩⟩,
    fun pos hpos _ => absurd hpos (by simp [cNew]), ?_, ?_⟩
  · show (0 : Int) ≤ (if n < 0 then 0 else n)
    split <;> omega
  · show ((0 : Nat) : Int) ≤ (if n < 0 then 0 else n)
    split <;> omega


/-!
Evaluation helpers: one-step unfoldings of the operations defined by
well-founded recursion, used to run the algorithms on concrete states inside
proofs.
-/

theorem hcEvict_eq (c : Cache κ ν) (count : Int) :
    hcEvict c count = if count > 0 then
      (match heapPop c with
       | none => none
       | some (w, c1) => hcEvict { c1 with items := merase c1.items w.key } (count - 1))
    else some c := by
  rw [hcEvict]
  rfl

theorem heapPop_eval (c : Cache κ ν) (h : c.seq.isEmpty = false) :
    heapPop c =
      (match hPopRaw ((hdownGo (hswap c 0 (c.seq.length - 1)) 0 (c.seq.length - 1)).1) with
       | none => none
       | some (id, c3) => some (getW c3 id, c3)) := by
  unfold heapPop
  rw [h]
  rfl

theorem heapPushW_eval (c : Cache κ ν) (w : Wrapper κ ν) :
    heapPushW c w = (c.arena.length,
      hup (hPushRaw { c with arena := c.arena ++ [w] } c.arena.length)
        ((hPushRaw { c with arena := c.arena ++ [w] } c.arena.length).seq.length - 1)) :=
  rfl

theorem hcEvict_one (c : Cache κ ν) {w : Wrapper κ ν} {c1 : Cache κ ν}
    (hpop : heapPop c = some (w, c1)) :
    hcEvict c 1 = some { c1 with items := merase c1.items w.key } := by
  rw [hcEvict_eq, if_pos (by norm_num : (1 : Int) > 0), hpop]
  show hcEvict { c1 with items := merase c1.items w.key } (1 - 1) = _
  rw [hcEvict_eq, if_neg (by norm_num : ¬ ((1 : Int) - 1 > 0))]

theorem hcAdd_insert_full (c : Cache κ ν) (k : κ) (v : ν) (p : Int)
    (hnew : mlookup c.items k = none)
    (hfull : (c.items.length : Int) ≥ c.capacity) :
    hcAdd c k v p = (hcEvict c 1).bind (fun c2 =>
      some { (heapPushW c2 ⟨0, k, v, p⟩).2 with
        items := mput (heapPushW c2 ⟨0, k, v, p⟩).2.items k
          (heapPushW c2 ⟨0, k, v, p⟩).1 }) := by
  unfold hcAdd
  rw [hnew]
  show (if (c.items.length : Int) ≥ c.capacity then hcEvict c 1 else some c).bind
    (fun c2 => some { (heapPushW c2 ⟨0, k, v, p⟩).2 with
      items := mput (heapPushW c2 ⟨0, k, v, p⟩).2.items k
        (heapPushW c2 ⟨0, k, v, p⟩).1 }) = _
  rw [if_pos hfull]

theorem hcAdd_insert_notfull (c : Cache κ ν) (k : κ) (v : ν) (p : Int)
    (hnew : mlookup c.items k = none)
    (hnf : ¬ ((c.items.length : Int) ≥ c.capacity)) :
    hcAdd c k v p = some { (heapPushW c ⟨0, k, v, p⟩).2 with
      items := mput (heapPushW c ⟨0, k, v, p⟩).2.items k
        (heapPushW c ⟨0, k, v, p⟩).1 } := by
  unfold hcAdd
  rw [hnew]
  show (if (c.items.length : Int) ≥ c.capacity then hcEvict c 1 else some c).bind
    (fun c2 => some { (heapPushW c2 ⟨0, k, v, p⟩).2 with
      items := mput (heapPushW c2 ⟨0, k, v, p⟩).2.items k
        (heapPushW c2 ⟨0, k, v, p⟩).1 }) = _
  rw [if_neg hnf]
  rfl

/-!
Concrete intermediate states of a five-call trace against the `HeapCache`
variant of `cache.go` (capacity 2): `AddMany` with the same new key twice,
then four single `Add` calls with fresh keys.  The duplicated key leaves a
stale wrapper in the heap; once eviction pops a wrapper whose map binding
points at a different wrapper (or was already deleted), the map and the heap
drift apart and the entry count finally exceeds the capacity.
-/

def hcT1 : Cache Nat Nat :=
  ⟨2, [⟨0, 100, 0, 10⟩, ⟨1, 100, 0, 20⟩], [0, 1], [(100, 1)]⟩

def hcT2 : Cache Nat Nat :=
  ⟨2, [⟨2, 100, 0, 10⟩, ⟨1, 100, 0, 20⟩, ⟨0, 101, 0, 5⟩], [2, 1, 0],
    [(100, 1), (101, 2)]⟩

def hcW2 : Wrapper Nat Nat := ⟨-1, 101, 0, 5⟩

def hcC2 : Cache Nat Nat :=
  ⟨2, [⟨0, 100, 0, 10⟩, ⟨1, 100, 0, 20⟩, ⟨-1, 101, 0, 5⟩], [0, 1],
    [(100, 1), (101, 2)]⟩

def hcE2 : Cache Nat Nat :=
  ⟨2, [⟨0, 100, 0, 10⟩, ⟨1, 100, 0, 20⟩, ⟨-1, 101, 0, 5⟩], [0, 1], [(100, 1)]⟩

def hcT3 : Cache Nat Nat :=
  ⟨2, [⟨0, 100, 0, 10⟩, ⟨1, 100, 0, 20⟩, ⟨-1, 101, 0, 5⟩, ⟨2, 102, 0, 30⟩],
    [0, 1, 3], [(100, 1), (102, 3)]⟩

def hcW3 : Wrapper Nat Nat := ⟨-1, 100, 0, 10⟩

def hcC3 : Cache Nat Nat :=
  ⟨2, [⟨-1, 100, 0, 10⟩, ⟨0, 100, 0, 20⟩, ⟨-1, 101, 0, 5⟩, ⟨1, 102, 0, 30⟩],
    [1, 3], [(100, 1), (102, 3)]⟩

def hcE3 : Cache Nat Nat :=
  ⟨2, [⟨-1, 100, 0, 10⟩, ⟨0, 100, 0, 20⟩, ⟨-1, 101, 0, 5⟩, ⟨1, 102, 0, 30⟩],
    [1, 3], [(102, 3)]⟩

def hcT4 : Cache Nat Nat :=
  ⟨2, [⟨-1, 100, 0, 10⟩, ⟨0, 100, 0, 20⟩, ⟨-1, 101, 0, 5⟩, ⟨1, 102, 0, 30⟩,
    ⟨2, 103, 0, 40⟩], [1, 3, 4], [(102, 3), (103, 4)]⟩

def hcW4 : Wrapper Nat Nat := ⟨-1, 100, 0, 20⟩

def hcC4 : Cache Nat Nat :=
  ⟨2, [⟨-1, 100, 0, 10⟩, ⟨-1, 100, 0, 20⟩, ⟨-1, 101, 0, 5⟩, ⟨0, 102, 0, 30⟩,
    ⟨1, 103, 0, 40⟩], [3, 4], [(102, 3), (103, 4)]⟩

def hcT5 : Cache Nat Nat :=
  ⟨2, [⟨-1, 100, 0, 10⟩, ⟨-1, 100, 0, 20⟩, ⟨-1, 101, 0, 5⟩, ⟨0, 102, 0, 30⟩,
    ⟨1, 103, 0, 40⟩, ⟨2, 104, 0, 50⟩], [3, 4, 5],
    [(102, 3), (103, 4), (104, 5)]⟩

/-- C1: the claimed invariant "after every public operation the number of
live entries is at most the capacity" fails for the `HeapCache` variant of
`cache.go`: a batch holding the same new key twice followed by four single
adds with fresh keys leaves three map entries in a capacity-2 cache (the
final evaluation of `len() <= capacity()` is `false`). -/
theorem spec_C1_len_le_capacity_violated :
    (((((hcAddMany (hcNew 2 : Cache Nat Nat) [(100, 0, 10), (100, 0, 20)]).bind
      (fun c => hcAdd c 101 0 5)).bind
      (fun c => hcAdd c 102 0 30)).bind
      (fun c => hcAdd c 103 0 40)).bind
      (fun c => hcAdd c 104 0 50)).map
      (fun c => decide ((c.items.length : Int) ≤ c.capacity)) = some false := by
  have eA : hcAddMany (hcNew 2 : Cache Nat Nat) [(100, 0, 10), (100, 0, 20)] =
      some hcT1 := by
    show some ((hdownGo hcT1 0 2).1) = some hcT1
    rw [hdownGo_eq]
    rfl
  have eB : hcAdd hcT1 101 0 5 = some hcT2 := by
    rw [hcAdd_insert_notfull hcT1 101 0 5 rfl (by decide), heapPushW_eval,
      hup_eq, hup_eq]
    rfl
  have epop2 : heapPop hcT2 = some (hcW2, hcC2) := by
    rw [heapPop_eval hcT2 rfl, hdownGo_eq, hdownGo_eq]
    rfl
  have eev2 : hcEvict hcT2 1 = some hcE2 := by
    rw [hcEvict_one hcT2 epop2]
    rfl
  have eC : hcAdd hcT2 102 0 30 = some hcT3 := by
    rw [hcAdd_insert_full hcT2 102 0 30 rfl (by decide), eev2]
    show some { (heapPushW hcE2 (⟨0, 102, 0, 30⟩ : Wrapper Nat Nat)).2 with
      items := mput (heapPushW hcE2 (⟨0, 102, 0, 30⟩ : Wrapper Nat Nat)).2.items 102
        (heapPushW hcE2 (⟨0, 102, 0, 30⟩ : Wrapper Nat Nat)).1 } = some hcT3
    rw [heapPushW_eval, hup_eq, hup_eq]
    rfl
  have epop3 : heapPop hcT3 = some (hcW3, hcC3) := by
    rw [heapPop_eval hcT3 rfl, hdownGo_eq, hdownGo_eq]
    rfl
  have eev3 : hcEvict hcT3 1 = some hcE3 := by
    rw [hcEvict_one hcT3 epop3]
    rfl
  have eD : hcAdd hcT3 103 0 40 = some hcT4 := by
    rw [hcAdd_insert_full hcT3 103 0 40 rfl (by decide), eev3]
    show some { (heapPushW hcE3 (⟨0, 103, 0, 40⟩ : Wrapper Nat Nat)).2 with
      items := mput (heapPushW hcE3 (⟨0, 103, 0, 40⟩ : Wrapper Nat Nat)).2.items 103
        (heapPushW hcE3 (⟨0, 103, 0, 40⟩ : Wrapper Nat Nat)).1 } = some hcT4
    rw [heapPushW_eval, hup_eq, hup_eq]
    rfl
  have epop4 : heapPop hcT4 = some (hcW4, hcC4) := by
    rw [heapPop_eval hcT4 rfl, hdownGo_eq, hdownGo_eq]
    rfl
  have eev4 : hcEvict hcT4 1 = some hcC4 := by
    rw [hcEvict_one hcT4 epop4]
    rfl
  have eE : hcAdd hcT4 104 0 50 = some hcT5 := by
    rw [hcAdd_insert_full hcT4 104 0 50 rfl (by decide), eev4]
    show some { (heapPushW hcC4 (⟨0, 104, 0, 50⟩ : Wrapper Nat Nat)).2 with
      items := mput (heapPushW hcC4 (⟨0, 104, 0, 50⟩ : Wrapper Nat Nat)).2.items 104
        (heapPushW hcC4 (⟨0, 104, 0, 50⟩ : Wrapper Nat Nat)).1 } = some hcT5
    rw [heapPushW_eval, hup_eq, hup_eq]
    rfl
  simp only [eA, Option.some_bind, eB, eC, eD, eE, Option.map_some']
  rfl

/-- C2: the claimed map/heap agreement after every mutating operation fails
for `HeapCache.AddMany` of `cache.go`: a batch holding the same new key twice
is collected twice by the first pass and pushed twice, so the heap ends with
two slots while the map holds one binding (the evaluation of "map size equals
heap length" is `false`). -/
theorem spec_C2_map_heap_desync :
    (hcAddMany (hcNew 2 : Cache Nat Nat) [(7, 1, 10), (7, 2, 20)]).map
      (fun c => decide (c.items.length = c.seq.length)) = some false := by
  have eA : hcAddMany (hcNew 2 : Cache Nat Nat) [(7, 1, 10), (7, 2, 20)] =
      some (⟨2, [⟨0, 7, 1, 10⟩, ⟨1, 7, 2, 20⟩], [0, 1], [(7, 1)]⟩ : Cache Nat Nat) := by
    show some ((hdownGo (⟨2, [⟨0, 7, 1, 10⟩, ⟨1, 7, 2, 20⟩], [0, 1],
      [(7, 1)]⟩ : Cache Nat Nat) 0 2).1) = _
    rw [hdownGo_eq]
    rfl
  rw [eA, Option.map_some']
  rfl

/-- C3: the claim that a capacity-zero cache turns every add into a no-op
that returns normally fails for the `HeapCache` variant of `cache.go`: its
`Add` has no zero-capacity short-circuit, so `len(items) >= capacity` holds
at once and the unguarded `evict` pops the empty heap — a panic, modelled as
`none`.  (The `addItem` of `part_000`/`part_001` does short-circuit.) -/
theorem spec_C3_capacity_zero_add_panics :
    hcAdd (hcNew 0 : Cache Nat Nat) 1 10 5 = none := by
  rw [hcAdd_insert_full (hcNew 0 : Cache Nat Nat) 1 10 5 rfl (by decide),
    hcEvict_eq, if_pos (by norm_num : (1 : Int) > 0)]
  rfl

/-- C4: on an invariant state, `evict(count)` with `count >= 0` pops exactly
`min count len` entries (the return value, never negative, with over- and
zero-requests handled), keeps the full invariant, and every popped wrapper
sorts no later than every entry left behind; the popped list is ascending in
priority. -/
theorem spec_C4_evict_lowest_priority {c : Cache κ ν} (count : Int)
    (hinv : Inv c) (hcount : 0 ≤ count) :
    (cEvict c count).1 = min count (c.items.length : Int) ∧
    0 ≤ (cEvict c count).1 ∧
    Inv (cEvict c count).2 ∧
    ((cEvict c count).2.items.length : Int) =
      (c.items.length : Int) - (cEvict c count).1 ∧
    (∀ w ∈ (cEvictGo c count).1, ∀ id ∈ (cEvictGo c count).2.seq,
      w.prio ≤ (getW (cEvictGo c count).2 id).prio) ∧
    List.Pairwise (fun a b => a.prio ≤ b.prio) (cEvictGo c count).1 :=
  cEvict_spec count hinv hcount

theorem spec_C4_evict_lowest_priority_witness :
    Inv demoCache ∧ (0 : Int) ≤ 2 ∧
    ((cEvict demoCache 2).1 = min 2 (demoCache.items.length : Int) ∧
     0 ≤ (cEvict demoCache 2).1 ∧
     Inv (cEvict demoCache 2).2 ∧
     ((cEvict demoCache 2).2.items.length : Int) =
       (demoCache.items.length : Int) - (cEvict demoCache 2).1 ∧
     (∀ w ∈ (cEvictGo demoCache 2).1, ∀ id ∈ (cEvictGo demoCache 2).2.seq,
       w.prio ≤ (getW (cEvictGo demoCache 2).2 id).prio) ∧
     List.Pairwise (fun a b => a.prio ≤ b.prio) (cEvictGo demoCache 2).1) :=
  ⟨by decide, by decide, spec_C4_evict_lowest_priority 2 (by decide) (by decide)⟩

/-- C5 (amended to nonnegative requests): `setCapacity(n)` with
`0 <= n` and `n` at or above the entry count only stores the bound;
with `n` strictly below the entry count it evicts down to `n` entries (the
evicted wrappers — the popped list of the internal eviction — each sort no
later than everything kept) and stores `n`; and `changeCapacity(delta)` is
`setCapacity(capacity + delta)`.  The original claim is false for negative
`n`: the stored bound is clamped to zero, never `n`. -/
theorem spec_C5_setCapacity {c : Cache κ ν} {n : Int} (hinv : Inv c)
    (hn : 0 ≤ n) :
    ((c.items.length : Int) ≤ n → csetCapacity c n = { c with capacity := n }) ∧
    (n < (c.items.length : Int) →
      Inv (csetCapacity c n) ∧ (csetCapacity c n).capacity = n ∧
      ((csetCapacity c n).items.length : Int) = n ∧
      (∀ q ∈ (csetCapacity c n).items, q ∈ c.items) ∧
      (∀ w ∈ (cEvictGo c ((c.items.length : Int) - n)).1,
        ∀ id ∈ (csetCapacity c n).seq,
        w.prio ≤ (getW (csetCapacity c n) id).prio)) ∧
    (∀ delta, cChangeCapacity c delta = csetCapacity c (c.capacity + delta)) :=
  csetCapacity_spec hinv hn

theorem spec_C5_setCapacity_witness :
    Inv demoCache ∧ (0 : Int) ≤ 1 ∧
    (((demoCache.items.length : Int) ≤ 1 →
      csetCapacity demoCache 1 = { demoCache with capacity := 1 }) ∧
    (1 < (demoCache.items.length : Int) →
      Inv (csetCapacity demoCache 1) ∧ (csetCapacity demoCache 1).capacity = 1 ∧
      ((csetCapacity demoCache 1).items.length : Int) = 1 ∧
      (∀ q ∈ (csetCapacity demoCache 1).items, q ∈ demoCache.items) ∧
      (∀ w ∈ (cEvictGo demoCache ((demoCache.items.length : Int) - 1)).1,
        ∀ id ∈ (csetCapacity demoCache 1).seq,
        w.prio ≤ (getW (csetCapacity demoCache 1) id).prio)) ∧
    (∀ delta, cChangeCapacity demoCache delta =
      csetCapacity demoCache (demoCache.capacity + delta))) :=
  ⟨by decide, by decide, spec_C5_setCapacity (by decide) (by decide)⟩

/-- C5, counterexample to the original wording: `setCapacity(-1)` on a
nonempty cache stores capacity `0`, not `-1`. -/
theorem spec_C5_counterexample :
    (csetCapacity demoCache (-1)).capacity = 0 ∧
    (csetCapacity demoCache (-1)).capacity ≠ -1 := by
  have h := (@csetCapacity_neg Nat Nat _ _ _ demoCache (-1)
    (by decide) (by decide)).1
  exact ⟨h, by rw [h]; decide⟩

/-- C6 (amended to the clamping variants): in `part_000`/`part_002`, a
negative capacity request at construction or via `setCapacity` /
`changeCapacity` is clamped to zero, the call returns normally, and the
resulting capacity is never negative.  The original "for every negative
capacity request" is false: `New` of the `assetPositive` variant of
`cache.go` panics instead (see the counterexample). -/
theorem spec_C6_negative_clamped {c : Cache κ ν} {n : Int} (hinv : Inv c)
    (hneg : n < 0) :
    (cNew n : Cache κ ν).capacity = 0 ∧ Inv (cNew n : Cache κ ν) ∧
    (csetCapacity c n).capacity = 0 ∧ Inv (csetCapacity c n) ∧
    0 ≤ (csetCapacity c n).capacity ∧
    (c.capacity + n < 0 → (cChangeCapacity c n).capacity = 0) := by
  obtain ⟨h1, h2, _⟩ := csetCapacity_neg hinv hneg
  refine ⟨?_, cNew_inv n, h1, h2, ?_, ?_⟩
  · show (if n < 0 then 0 else n) = 0
    rw [if_pos hneg]
  · rw [h1]
  · intro hd
    exact (csetCapacity_neg hinv hd).1

theorem spec_C6_negative_clamped_witness :
    Inv demoCache ∧ (-1 : Int) < 0 ∧
    ((cNew (-1) : Cache Nat Nat).capacity = 0 ∧ Inv (cNew (-1) : Cache Nat Nat) ∧
     (csetCapacity demoCache (-1)).capacity = 0 ∧
     Inv (csetCapacity demoCache (-1)) ∧
     0 ≤ (csetCapacity demoCache (-1)).capacity ∧
     (demoCache.capacity + (-1) < 0 →
       (cChangeCapacity demoCache (-1)).capacity = 0)) :=
  ⟨by decide, by decide, spec_C6_negative_clamped (by decide) (by decide)⟩

/-- C6, counterexample to the original wording: `New(-1)` in the
`assetPositive` variant of `cache.go` panics (modelled as `none`) instead of
returning normally with a clamped capacity. -/
theorem spec_C6_counterexample :
    cNewD (-1) = (none : Option (Cache Nat Nat)) := rfl

/-- C7 (amended to nonzero capacity): on an invariant state with nonzero
capacity, `add(k, v, p)` (the `part_001` `addItem`) returns normally and an
immediate `get(k)` yields the stored value `v`; and re-adding an existing key
with a new value but an unchanged priority overwrites the value in place —
the heap sequence is untouched and every heap position keeps its key and
priority.  The original "for every key/cache" is false at capacity zero (see
the counterexample). -/
theorem spec_C7_add_get_roundtrip {c : Cache κ ν} (k : κ) (v : ν) (p : Int)
    (hinv : Inv c) (hcap : c.capacity ≠ 0) :
    (∃ c', addItemB c k v p = some c' ∧ cGet c' k = some v) ∧
    (∀ id, mlookup c.items k = some id → (getW c id).prio = p →
      addItemB c k v p = some (setW c id { getW c id with value := v }) ∧
      (setW c id { getW c id with value := v }).seq = c.seq ∧
      (∀ pos,
        (wAt (setW c id { getW c id with value := v }) pos).key = (wAt c pos).key ∧
        (wAt (setW c id { getW c id with value := v }) pos).prio = (wAt c pos).prio)) := by
  obtain ⟨⟨hs, hidx, hm⟩, hheap, hcap0, hlencap⟩ := hinv
  constructor
  · cases hlk : mlookup c.items k with
    | none =>
        obtain ⟨c', h1, _, h3, _, _⟩ :=
          addItemB_insert_spec v p ⟨⟨hs, hidx, hm⟩, hheap, hcap0, hlencap⟩ hcap hlk
        exact ⟨c', h1, h3⟩
    | some id =>
        by_cases hpeq : (getW c id).prio = p
        · refine ⟨setW c id { getW c id with value := v },
            addItemB_update_samePrio v hcap hlk hpeq, ?_⟩
          exact (setW_value_facts v hs hm hlk).2.2.2.2.2.2.2
        · obtain ⟨c', h1, _, h3, _, _⟩ :=
            addItemB_update_diffPrio v ⟨⟨hs, hidx, hm⟩, hheap, hcap0, hlencap⟩
              hcap hlk hpeq
          exact ⟨c', h1, h3⟩
  · intro id hlk hpeq
    obtain ⟨_, _, _, _, hkeyp, hpriop, _, _⟩ := setW_value_facts v hs hm hlk
    refine ⟨addItemB_update_samePrio v hcap hlk hpeq, rfl, ?_⟩
    intro pos
    constructor
    · unfold wAt
      rw [show widAt (setW c id { getW c id with value := v }) pos = widAt c pos
        from rfl, hkeyp]
    · unfold wAt
      rw [show widAt (setW c id { getW c id with value := v }) pos = widAt c pos
        from rfl, hpriop]

theorem spec_C7_add_get_roundtrip_witness :
    Inv demoCache ∧ demoCache.capacity ≠ 0 ∧
    ((∃ c', addItemB demoCache 5 50 4 = some c' ∧ cGet c' 5 = some 50) ∧
     (∀ id, mlookup demoCache.items 5 = some id → (getW demoCache id).prio = 4 →
       addItemB demoCache 5 50 4 =
         some (setW demoCache id { getW demoCache id with value := 50 }) ∧
       (setW demoCache id { getW demoCache id with value := 50 }).seq =
         demoCache.seq ∧
       (∀ pos,
         (wAt (setW demoCache id { getW demoCache id with value := 50 }) pos).key =
           (wAt demoCache pos).key ∧
         (wAt (setW demoCache id { getW demoCache id with value := 50 }) pos).prio =
           (wAt demoCache pos).prio))) :=
  ⟨by decide, by decide, spec_C7_add_get_roundtrip 5 50 4 (by decide) (by decide)⟩

/-- C7, counterexample to the original wording: at capacity zero, `add` is a
no-op and the immediate `get` finds nothing. -/
theorem spec_C7_counterexample :
    (addItemB (cNew 0 : Cache Nat Nat) 1 42 5).map (fun c => cGet c 1) =
      some none := rfl

/-- C8: on an invariant state, removing a present key deletes it and reports
success (`true` in `part_001`, removal count 1 in `part_000`); an immediate
second removal reports failure (`false`, count 0) and leaves the state
unchanged; removing an absent key is a reported no-op, never an error. -/
theorem spec_C8_remove_idempotent {c : Cache κ ν} (k : κ) (hinv : Inv c) :
    (∀ id, mlookup c.items k = some id →
      ∃ c', cRemove1 c k = some (true, c') ∧ Inv c' ∧
        mlookup c'.items k = none ∧ c'.items.length + 1 = c.items.length ∧
        cRemove1 c' k = some (false, c') ∧
        (∃ c'', cRemove c [k] = some (1, c'') ∧
          cRemove c'' [k] = some (0, c''))) ∧
    (mlookup c.items k = none →
      cRemove1 c k = some (false, c) ∧ cRemove c [k] = some (0, c)) := by
  constructor
  · intro id hlk
    obtain ⟨c', h1, h2, h3, h4, _, h6⟩ := cRemove1_spec_present hinv hlk
    obtain ⟨c'', g1, _, _, _, _, g6⟩ := cRemove_single_spec hinv hlk
    exact ⟨c', h1, h2, h3, h4, h6, c'', g1, g6⟩
  · intro hlk
    constructor
    · unfold cRemove1
      rw [hlk]
    · unfold cRemove cRemoveGo
      rw [hlk]
      rfl

theorem spec_C8_remove_idempotent_witness :
    Inv demoCache ∧
    ((∀ id, mlookup demoCache.items 2 = some id →
      ∃ c', cRemove1 demoCache 2 = some (true, c') ∧ Inv c' ∧
        mlookup c'.items 2 = none ∧
        c'.items.length + 1 = demoCache.items.length ∧
        cRemove1 c' 2 = some (false, c') ∧
        (∃ c'', cRemove demoCache [2] = some (1, c'') ∧
          cRemove c'' [2] = some (0, c''))) ∧
    (mlookup demoCache.items 2 = none →
      cRemove1 demoCache 2 = some (false, demoCache) ∧
      cRemove demoCache [2] = some (0, demoCache))) :=
  ⟨by decide, spec_C8_remove_idempotent 2 (by decide)⟩

/-- C9: the claimed lock discipline — every operation that can change the
map, the heap, or the capacity holds the exclusive write lock for its whole
duration — fails for the comparator variant `part_002`: its `Add` performs
the in-place update / eviction / push / map store with no lock at all, while
the corresponding operations of `part_000` do lock. -/
theorem spec_C9_add_mutates_unlocked :
    mutationsLocked addTrace002 = false ∧
    mutationsLocked addTrace000 = true ∧
    mutationsLocked removeTrace000 = true ∧
    mutationsLocked evictTrace000 = true ∧
    mutationsLocked purgeTrace000 = true ∧
    mutationsLocked setCapacityTrace000 = true :=
  ⟨rfl, rfl, rfl, rfl, rfl, rfl⟩

/-- C10: with an empty key list, the all-present check (`All`/`Contains`)
returns `true` vacuously and the any-present check (`Any`) returns `false`;
both are pure reads of the state (they return only the Boolean). -/
theorem spec_C10_empty_membership (c : Cache κ ν) :
    cAll c [] = true ∧ cAny c [] = false :=
  ⟨rfl, rfl⟩

end Heapcache
